import Mathlib

/-!
# Table-Excel: the cell content / dependency / cache core

A shallow embedding of `src/cell.h` and `src/src/cell.cpp`.

* A `Sheet` is the store of all cells, addressed by `Position`; a pointer
  `Cell*` of the source is the position of the cell it points to, and every
  field access `cell->f` reads the store at that position.
* `Cells` (`std::unordered_set<Position, HashPosition>`) is a list that is
  iterated front to back; `Cells.insert` keeps it free of duplicates.
* Recursive member functions whose recursion follows the cell graph
  (`IsCircularFormula`, `InvalidAllDependentCaches`, `GetValue`) take a
  recursion-depth budget and return `none` when the budget is exhausted, so
  "the call returns" is `∃ fuel, f fuel … = some …` and "the call never
  returns" is `∀ fuel, f fuel … = none`.
* `IsCircularFormulaLog`, `UpdateReferencesLog` and
  `InvalidAllDependentCachesLog` are the same traversals with a record of the
  positions they pass to `MakeCell`; the `…_erase` theorems show that they
  compute exactly what the traversals without the record compute.
-/

namespace TableExcel

/-! ## Positions and values -/

/-- A cell coordinate (`struct Position` of `common.h`); `int` fields. -/
structure Position where
  row : Int
  col : Int
deriving DecidableEq

/-- Modelled from the spec: `Position::IsValid` (`common.h` is not among the
sources). The spec describes a position as "(row: integer ≥ 0, col: integer ≥ 0)
or a distinguished invalid sentinel". -/
def Position.IsValid (pos : Position) : Bool :=
  decide (0 ≤ pos.row) && decide (0 ≤ pos.col)

/-- Modelled from the spec: the evaluation-error codes carried by a `Value`
(`FormulaError` of `common.h`, not among the sources). -/
inductive FormulaError where
  | Ref
  | Value
  | Div0
deriving DecidableEq

/-- The result of a cell, `CellInterface::Value`: text, number or evaluation
error. Numbers are `double` in the source; they are represented by integers,
which is exact for the integer arithmetic the scenarios of the spec use. -/
inductive Value where
  | text (s : String)
  | number (n : Int)
  | error (e : FormulaError)
deriving DecidableEq

/-- Modelled from the spec: `FORMULA_SIGN` of `common.h`, the formula marker
of the spec's examples (`"=A1"`). -/
def FORMULA_SIGN : Char := '='

/-- Modelled from the spec: `ESCAPE_SIGN` of `common.h`, the escape marker of
the spec's example `'123` (the apostrophe, code point 39). -/
def ESCAPE_SIGN : Char := Char.ofNat 39

/-! ## The formula engine (external collaborator) -/

/-- Modelled from the spec: the evaluable expression behind a parsed formula
(`formula.cpp` is not among the sources). Only what the spec's scenarios need:
integer literals, cell references, sums and products. -/
inductive Expr where
  | num (n : Int)
  | ref (pos : Position)
  | add (a b : Expr)
  | mul (a b : Expr)
deriving DecidableEq

/-- Modelled from the spec: the handle `FormulaInterface` returned by
`ParseFormula` (§6 of the spec): `GetExpression()` is the canonical text,
`GetReferencedCells()` the referenced positions (duplicates and invalid
positions permitted), `body` what `Evaluate` computes. -/
structure FormulaInterface where
  GetExpression : String
  GetReferencedCells : List Position
  body : Expr
deriving DecidableEq

/-! ## Reference sets -/

/-- The type `Cells` of `cell.h`: `std::unordered_set<Position, HashPosition>`. -/
abbrev Cells := List Position

/-- Member `insert` of `std::unordered_set`: no effect when already present. -/
def Cells.insert (cs : Cells) (pos : Position) : Cells :=
  if pos ∈ cs then cs else cs ++ [pos]

/-- Member `erase(key)` of `std::unordered_set`. -/
def Cells.erase (cs : Cells) (pos : Position) : Cells :=
  cs.filter (fun q => decide (q ≠ pos))

/-- The range constructor `Cells(positions.begin(), positions.end())`. -/
def Cells.ofVector (positions : List Position) : Cells :=
  positions.foldl Cells.insert []

/-! ## Cells and their content -/

/-- The three content variants `EmptyImpl`, `TextImpl`, `FormulaImpl`. -/
inductive Impl where
  | EmptyImpl
  | TextImpl (content_ : String)
  | FormulaImpl (formula_ : FormulaInterface)
deriving DecidableEq

/-- The data members of `class Cell` (`sheet_` is the store that is passed
around, `pos_` is the key under which the cell is stored). -/
structure Cell where
  impl_ : Impl
  incoming_references_ : Cells
  outgoing_references_ : Cells
  cache_ : Option Value
deriving DecidableEq

/-- The constructor `Cell::Cell`: `EmptyImpl`, both sets empty, no cache. -/
def Cell.new : Cell :=
  { impl_ := Impl.EmptyImpl, incoming_references_ := [], outgoing_references_ := [],
    cache_ := none }

/-- The method `Impl::GetText` of the three variants. -/
def Impl.GetText : Impl → String
  | Impl.EmptyImpl => ""
  | Impl.TextImpl content_ => content_
  | Impl.FormulaImpl formula_ => String.mk (FORMULA_SIGN :: formula_.GetExpression.data)

/-- The method `Impl::GetReferencedCells` of the three variants. -/
def Impl.GetReferencedCells : Impl → List Position
  | Impl.EmptyImpl => []
  | Impl.TextImpl _ => []
  | Impl.FormulaImpl formula_ => formula_.GetReferencedCells

/-- The method `Cell::GetText`. -/
def Cell.GetText (c : Cell) : String := c.impl_.GetText

/-- The method `Cell::GetReferencedCells`. -/
def Cell.GetReferencedCells (c : Cell) : List Position := c.impl_.GetReferencedCells

/-- The method `Cell::IsReferenced`. -/
def Cell.IsReferenced (c : Cell) : Bool :=
  !c.outgoing_references_.isEmpty || !c.incoming_references_.isEmpty

/-! ## The sheet (external collaborator) -/

/-- The store of cells owned by `Sheet`: the materialized cells with their
positions. -/
abbrev Sheet := List (Position × Cell)

/-- Modelled from the spec: `Sheet::GetCellByIndex`, the `lookup` of §6
(`sheet.cpp` is not among the sources): the cell stored at `pos`, if any. -/
def Sheet.GetCellByIndex : Sheet → Position → Option Cell
  | [], _ => none
  | (q, c) :: rest, pos => if q = pos then some c else Sheet.GetCellByIndex rest pos

/-- Dereference of a `Cell*` obtained for `pos`: the stored cell. A position
without a stored cell reads as a freshly constructed cell. -/
def Sheet.cell (s : Sheet) (pos : Position) : Cell :=
  (s.GetCellByIndex pos).getD Cell.new

/-- Write through a `Cell*` obtained for `pos`: replace the stored cell. A
position without a stored cell gets one: the receiver of a call is a cell the
sheet has registered when the position was first addressed. -/
def Sheet.put : Sheet → Position → Cell → Sheet
  | [], pos, c => [(pos, c)]
  | (q, d) :: rest, pos, c =>
    if q = pos then (q, c) :: rest else (q, d) :: Sheet.put rest pos c

/-- Modelled from the spec: `sheet_.SetCell(pos, string())`, the
`materializeEmpty` of §6: registers a freshly constructed empty cell at `pos`
if none is stored there. -/
def Sheet.materializeEmpty (s : Sheet) (pos : Position) : Sheet :=
  match s.GetCellByIndex pos with
  | some _ => s
  | none => s.put pos Cell.new

/-- The method `Cell::MakeCell`: look the cell up, materialize it when absent.
The returned pointer is `pos` itself; the result is the store afterwards. -/
def MakeCell (s : Sheet) (pos : Position) : Sheet :=
  match s.GetCellByIndex pos with
  | some _ => s
  | none => s.materializeEmpty pos

/-! ## Cycle detection -/

/-- The result of a cycle check: the answer, the store afterwards (cells may
have been materialized) and the visited set afterwards. -/
abbrev CheckResult := Bool × Sheet × Cells

/-- The `for` loop of `Cell::IsCircularFormula` over the positions still to be
iterated; `recur` is the recursive call `IsCircularFormula(…, visit)` made on
behalf of the same receiver `pos_`. -/
def IsCircularFormula.loop (recur : Sheet → Cells → Cells → Option CheckResult) :
    List Position → Sheet → Cells → Option CheckResult
  | [], s, visit => some (false, s, visit)
  | pos :: rest, s, visit =>
    if !pos.IsValid || decide (pos ∈ visit) then
      IsCircularFormula.loop recur rest s visit
    else
      let visit1 := Cells.insert visit pos
      let s1 := MakeCell s pos
      match recur s1 (s1.cell pos).outgoing_references_ visit1 with
      | none => none
      | some (true, s2, visit2) => some (true, s2, visit2)
      | some (false, s2, visit2) => IsCircularFormula.loop recur rest s2 visit2

/-- The method `Cell::IsCircularFormula` of the cell at `pos_`; the first
argument bounds the recursion depth. -/
def IsCircularFormula : Nat → Sheet → Position → Cells → Cells → Option CheckResult
  | 0, _, _, _, _ => none
  | fuel + 1, s, pos_, outgoing_references, visit =>
    if pos_ ∈ outgoing_references then some (true, s, visit)
    else
      IsCircularFormula.loop (fun s1 out v => IsCircularFormula fuel s1 pos_ out v)
        outgoing_references s visit

/-- The method `Cell::IsCircular` of the cell at `pos_` for the candidate
content `impl`: the answer and the store afterwards. -/
def IsCircular (fuel : Nat) (s : Sheet) (pos_ : Position) (impl : Impl) :
    Option (Bool × Sheet) :=
  let positions := impl.GetReferencedCells
  let outgoing_references := Cells.ofVector positions
  let visit : Cells := []
  (IsCircularFormula fuel s pos_ outgoing_references visit).map (fun r => (r.1, r.2.1))

/-! ## Edge maintenance and cache invalidation -/

/-- The first loop body of `Cell::UpdateReferences`, for one position of the
old outgoing set: `cell->incoming_references_.erase(pos)`. -/
def UpdateReferences.dropEdge (s : Sheet) (pos : Position) : Sheet :=
  if !pos.IsValid then s
  else
    let s1 := MakeCell s pos
    s1.put pos { s1.cell pos with
      incoming_references_ := Cells.erase (s1.cell pos).incoming_references_ pos }

/-- The second loop body of `Cell::UpdateReferences` of the cell at `pos_`,
for one referenced position: `outgoing_references_.insert(pos)` and
`cell->incoming_references_.insert(pos)`. -/
def UpdateReferences.addEdge (pos_ : Position) (s : Sheet) (pos : Position) : Sheet :=
  if !pos.IsValid then s
  else
    let s1 := s.put pos_ { s.cell pos_ with
      outgoing_references_ := Cells.insert (s.cell pos_).outgoing_references_ pos }
    let s2 := MakeCell s1 pos
    s2.put pos { s2.cell pos with
      incoming_references_ := Cells.insert (s2.cell pos).incoming_references_ pos }

/-- The method `Cell::UpdateReferences` of the cell at `pos_`. -/
def UpdateReferences (s : Sheet) (pos_ : Position) : Sheet :=
  let s1 := (s.cell pos_).outgoing_references_.foldl UpdateReferences.dropEdge s
  let s2 := s1.put pos_ { s1.cell pos_ with outgoing_references_ := [] }
  (s2.cell pos_).GetReferencedCells.foldl (UpdateReferences.addEdge pos_) s2

/-- The method `Cell::InvalidCache` of the cell at `pos_`. -/
def InvalidCache (s : Sheet) (pos_ : Position) : Sheet :=
  s.put pos_ { s.cell pos_ with cache_ := none }

/-- The `for` loop of `Cell::InvalidAllDependentCaches`; `recur` is the
recursive call `cell->InvalidAllDependentCaches(cell->incoming_references_)`. -/
def InvalidAllDependentCaches.loop (recur : Sheet → Cells → Option Sheet) :
    List Position → Sheet → Option Sheet
  | [], s => some s
  | pos :: rest, s =>
    if !pos.IsValid then InvalidAllDependentCaches.loop recur rest s
    else
      let s1 := MakeCell s pos
      let s2 := InvalidCache s1 pos
      match recur s2 (s2.cell pos).incoming_references_ with
      | none => none
      | some s3 => InvalidAllDependentCaches.loop recur rest s3

/-- The method `Cell::InvalidAllDependentCaches`; the first argument bounds the
recursion depth. The method reads no member of its receiver. -/
def InvalidAllDependentCaches : Nat → Sheet → Cells → Option Sheet
  | 0, _, _ => none
  | fuel + 1, s, incoming_references =>
    InvalidAllDependentCaches.loop (fun s1 inc => InvalidAllDependentCaches fuel s1 inc)
      incoming_references s

/-! ## Content mutation -/

/-- How a call of `Cell::Set` ends, with the store it leaves behind. -/
inductive SetResult where
  | ok (s : Sheet)
  | FormulaException (s : Sheet)
  | CircularDependencyException (s : Sheet)
deriving DecidableEq

/-- The store a call of `Cell::Set` leaves behind. -/
def SetResult.sheet : SetResult → Sheet
  | SetResult.ok s => s
  | SetResult.FormulaException s => s
  | SetResult.CircularDependencyException s => s

/-- The first statement of `Cell::Set`: the candidate content `tmp_impl` for
`text`, `none` when the constructor of `FormulaImpl` throws (`ParseFormula`
fails). `ParseFormula` is the parser of the formula engine. -/
def Set.candidate (ParseFormula : String → Option FormulaInterface) (text : String) :
    Option Impl :=
  if text.data = [] then some Impl.EmptyImpl
  else if text.data.head? = some FORMULA_SIGN ∧ 1 < text.data.length then
    match ParseFormula (String.mk text.data.tail) with
    | some formula => some (Impl.FormulaImpl formula)
    | none => none
  else some (Impl.TextImpl text)

/-- The method `Cell::Set` of the cell at `pos_`. `none`: the call does not
return within recursion depth `fuel`. -/
def Set (ParseFormula : String → Option FormulaInterface) (fuel : Nat) (s : Sheet)
    (pos_ : Position) (text : String) : Option SetResult :=
  match Set.candidate ParseFormula text with
  | none => some (SetResult.FormulaException s)
  | some tmp_impl =>
    match IsCircular fuel s pos_ tmp_impl with
    | none => none
    | some (true, s1) => some (SetResult.CircularDependencyException s1)
    | some (false, s1) =>
      let s2 := s1.put pos_ { s1.cell pos_ with impl_ := tmp_impl }
      let s3 := UpdateReferences s2 pos_
      let s4 := InvalidCache s3 pos_
      match InvalidAllDependentCaches fuel s4 (s4.cell pos_).incoming_references_ with
      | none => none
      | some s5 => some (SetResult.ok s5)

/-- The method `Cell::Clear` of the cell at `pos_`. -/
def Clear (s : Sheet) (pos_ : Position) : Sheet :=
  s.put pos_ { s.cell pos_ with impl_ := Impl.EmptyImpl }

/-! ## Values -/

/-- Modelled from the spec: the numeric reading of a decimal text, used when a
formula reads a cell that holds text (spec scenario: `A1 = "5"`,
`B1 = "=A1+1"` evaluates to 6). -/
def decimal? (cs : List Char) : Option Nat :=
  if cs ≠ [] ∧ cs.all (fun c => decide ('0' ≤ c ∧ c ≤ '9')) then
    some (cs.foldl (fun acc c => 10 * acc + (c.toNat - 48)) 0)
  else none

/-- Modelled from the spec: what a formula reads from a cell's `Value`
(`formula.cpp` is not among the sources): a number is itself, an error is
contagious, an empty text counts as 0, a decimal text as its number and any
other text is the evaluation error `Value`. -/
def Value.asNumber : Value → Except FormulaError Int
  | Value.number n => Except.ok n
  | Value.error e => Except.error e
  | Value.text t =>
    if t.data = [] then Except.ok 0
    else
      match decimal? t.data with
      | some n => Except.ok (Int.ofNat n)
      | none => Except.error FormulaError.Value

/-- Modelled from the spec: `FormulaInterface::Evaluate(sheet)` (§6:
"may itself invoke GetValue on other cells through the read-only graph view").
`getValue` is `Cell::GetValue` of the cell at a position; the store is
threaded because `GetValue` memoizes. A position without a cell reads as an
empty cell, an invalid position is the evaluation error `Ref`. -/
def Expr.Evaluate (getValue : Sheet → Position → Option (Value × Sheet)) :
    Expr → Sheet → Option (Except FormulaError Int × Sheet)
  | Expr.num n, s => some (Except.ok n, s)
  | Expr.ref pos, s =>
    if !pos.IsValid then some (Except.error FormulaError.Ref, s)
    else
      match s.GetCellByIndex pos with
      | none => some (Except.ok 0, s)
      | some _ =>
        match getValue s pos with
        | none => none
        | some (v, s1) => some (v.asNumber, s1)
  | Expr.add a b, s =>
    match Expr.Evaluate getValue a s with
    | none => none
    | some (ra, s1) =>
      match Expr.Evaluate getValue b s1 with
      | none => none
      | some (rb, s2) => some (ra >>= fun x => rb >>= fun y => Except.ok (x + y), s2)
  | Expr.mul a b, s =>
    match Expr.Evaluate getValue a s with
    | none => none
    | some (ra, s1) =>
      match Expr.Evaluate getValue b s1 with
      | none => none
      | some (rb, s2) => some (ra >>= fun x => rb >>= fun y => Except.ok (x * y), s2)

/-- The method `Impl::GetValue` of the three variants; `getValue` is
`Cell::GetValue`, which the evaluation of a formula may call on other cells. -/
def Impl.GetValue (getValue : Sheet → Position → Option (Value × Sheet)) :
    Impl → Sheet → Option (Value × Sheet)
  | Impl.EmptyImpl, s => some (Value.text "", s)
  | Impl.TextImpl content_, s =>
    some (Value.text (if content_.data.head? ≠ some ESCAPE_SIGN then content_
                      else String.mk content_.data.tail), s)
  | Impl.FormulaImpl formula_, s =>
    match Expr.Evaluate getValue formula_.body s with
    | none => none
    | some (Except.ok n, s1) => some (Value.number n, s1)
    | some (Except.error e, s1) => some (Value.error e, s1)

/-- The method `Cell::GetValue` of the cell at `pos_`: the returned value and
the store afterwards; the first argument bounds the recursion depth. -/
def GetValue : Nat → Sheet → Position → Option (Value × Sheet)
  | 0, _, _ => none
  | fuel + 1, s, pos_ =>
    match (s.cell pos_).cache_ with
    | some v => some (v, s)
    | none =>
      match Impl.GetValue (fun s1 p => GetValue fuel s1 p) (s.cell pos_).impl_ s with
      | none => none
      | some (v, s1) => some (v, s1.put pos_ { s1.cell pos_ with cache_ := some v })

/-! ## Call sequences -/

/-- A call made on the cell stored at a position. -/
inductive Call where
  | Set (pos : Position) (text : String)
  | Clear (pos : Position)
  | GetValue (pos : Position)
deriving DecidableEq

/-- Executes one call; `none` when the call does not return within `fuel`. -/
def Call.exec (ParseFormula : String → Option FormulaInterface) (fuel : Nat) (s : Sheet) :
    Call → Option SetResult
  | Call.Set pos text => TableExcel.Set ParseFormula fuel s pos text
  | Call.Clear pos => some (SetResult.ok (TableExcel.Clear s pos))
  | Call.GetValue pos => (TableExcel.GetValue fuel s pos).map (fun r => SetResult.ok r.2)

/-- Executes a sequence of calls each of which must return normally: `none`
when some call raises or does not return within `fuel`. -/
def runOk (ParseFormula : String → Option FormulaInterface) (fuel : Nat) :
    Sheet → List Call → Option Sheet
  | s, [] => some s
  | s, c :: cs =>
    match Call.exec ParseFormula fuel s c with
    | some (SetResult.ok s1) => runOk ParseFormula fuel s1 cs
    | _ => none

/-! ## A small formula engine for the scenarios of the spec -/

/-- Splits a text at every occurrence of `sep`. -/
def splitAtChar (sep : Char) : List Char → List (List Char)
  | [] => [[]]
  | c :: cs =>
    if c = sep then [] :: splitAtChar sep cs
    else
      match splitAtChar sep cs with
      | [] => [[c]]
      | x :: xs => (c :: x) :: xs

/-- A cell name: one column letter `A`–`Z` followed by a row number from 1. -/
def cellName? : List Char → Option Position
  | [] => none
  | c :: ds =>
    if 'A' ≤ c ∧ c ≤ 'Z' then
      match decimal? ds with
      | some (n + 1) => some { row := Int.ofNat n, col := Int.ofNat (c.toNat - 65) }
      | _ => none
    else none

/-- An operand: a cell name or a decimal literal. -/
def operand? (cs : List Char) : Option Expr :=
  match cellName? cs with
  | some pos => some (Expr.ref pos)
  | none => (decimal? cs).map (fun n => Expr.num (Int.ofNat n))

/-- Combines the operands of a chain with a binary operator, left to right. -/
def chain (op : Expr → Expr → Expr) : List Expr → Option Expr
  | [] => none
  | e :: es => some (es.foldl op e)

/-- A product of operands separated by `*`. -/
def product? (cs : List Char) : Option Expr :=
  ((splitAtChar '*' cs).mapM operand?) >>= chain Expr.mul

/-- A sum of products separated by `+`. -/
def sum? (cs : List Char) : Option Expr :=
  ((splitAtChar '+' cs).mapM product?) >>= chain Expr.add

/-- The positions an expression mentions, in order of occurrence. -/
def Expr.positions : Expr → List Position
  | Expr.num _ => []
  | Expr.ref pos => [pos]
  | Expr.add a b => a.positions ++ b.positions
  | Expr.mul a b => a.positions ++ b.positions

/-- A concrete `ParseFormula` for sums and products of cell names and decimal
literals without blanks; the canonical text of such a formula is the formula
itself. It stands in for the formula engine in the concrete scenarios. -/
def sampleParseFormula (text : String) : Option FormulaInterface :=
  (sum? text.data).map
    (fun e => { GetExpression := text, GetReferencedCells := e.positions, body := e })

/-- The position named `A1`. -/
def A1 : Position := { row := 0, col := 0 }

/-- The position named `B1`. -/
def B1 : Position := { row := 0, col := 1 }

/-- The position named `C1`. -/
def C1 : Position := { row := 0, col := 2 }

/-! ## Specification vocabulary -/

/-- The store `s1` is `s` up to materialization: every position holds what it
held in `s`, except that a position without a cell in `s` may hold a freshly
constructed cell (Empty, no edges, no cache) in `s1`. -/
def Sheet.Grown (s s1 : Sheet) : Prop :=
  ∀ p, s1.GetCellByIndex p = s.GetCellByIndex p ∨
    (s.GetCellByIndex p = none ∧ s1.GetCellByIndex p = some Cell.new)

/-- The stored outgoing set of the cell at a position. -/
def Sheet.out (s : Sheet) (v : Position) : Cells := (s.cell v).outgoing_references_

/-- The stored incoming set of the cell at a position. -/
def Sheet.inc (s : Sheet) (v : Position) : Cells := (s.cell v).incoming_references_

/-- One step of the cycle-check traversal over the outgoing sets `g`: from a
valid position `v` (whose cell is looked up and expanded) along one of its
stored outgoing edges. -/
def TraversalStep (g : Position → Cells) (v w : Position) : Prop :=
  v.IsValid = true ∧ w ∈ g v

/-- The candidate reference set `R` closes a cycle through `X` over the
outgoing sets `g`: `R` contains `X` itself, or `X` is reachable from a valid
position of `R` by one or more traversal steps. -/
def ClosesCycle (g : Position → Cells) (X : Position) (R : Cells) : Prop :=
  X ∈ R ∨ ∃ r ∈ R, r.IsValid = true ∧ Relation.TransGen (TraversalStep g) r X

/-- A visited position that was expanded without finding `X`: it is valid, `X`
is not among its outgoing edges and all its valid successors are in `V`. -/
def Expanded (g : Position → Cells) (X : Position) (V : Cells) (v : Position) : Prop :=
  v.IsValid = true ∧ X ∉ g v ∧ ∀ w ∈ g v, w.IsValid = true → w ∈ V

/-- What a returned cycle check on behalf of `X` guarantees, started in store
`s` on the set `out` with visited set `visit`. -/
def CheckSpec (X : Position) (s : Sheet) (out visit : Cells) (r : CheckResult) : Prop :=
  Sheet.Grown s r.2.1 ∧ visit ⊆ r.2.2 ∧
  (r.1 = true → ClosesCycle s.out X out) ∧
  (r.1 = false → X ∉ out ∧ (∀ p ∈ out, p.IsValid = true → p ∈ r.2.2) ∧
    ∀ v ∈ r.2.2, v ∉ visit → Expanded s.out X r.2.2 v)

/-- Every position that occurs in the stored outgoing set of some cell. -/
def Sheet.allOut (s : Sheet) : List Position :=
  s.flatMap (fun pc => pc.2.outgoing_references_)

/-- The parsed formula `B1` of the sample engine. -/
def formulaB1 : FormulaInterface :=
  { GetExpression := "B1", GetReferencedCells := [B1], body := Expr.ref B1 }

/-- The parsed formula `A1` of the sample engine. -/
def formulaA1 : FormulaInterface :=
  { GetExpression := "A1", GetReferencedCells := [A1], body := Expr.ref A1 }

/-- A sheet whose only cell `A1` holds the text `5` and its memoized value. -/
def sheetA1Five : Sheet :=
  [(A1, { impl_ := Impl.TextImpl "5", incoming_references_ := [], outgoing_references_ := [],
          cache_ := some (Value.text "5") })]

/-- The sheet that `Set(A1, "=B1")` produces from the sheet without cells. -/
def sheetA1ReadsB1 : Sheet :=
  [(B1, { impl_ := Impl.EmptyImpl, incoming_references_ := [B1], outgoing_references_ := [],
          cache_ := none }),
   (A1, { impl_ := Impl.FormulaImpl formulaB1, incoming_references_ := [],
          outgoing_references_ := [B1], cache_ := none })]

/-- The parsed formula `A1+1` of the sample engine. -/
def formulaA1Plus1 : FormulaInterface :=
  { GetExpression := "A1+1", GetReferencedCells := [A1],
    body := Expr.add (Expr.ref A1) (Expr.num 1) }

/-- The parsed formula `B1*2` of the sample engine. -/
def formulaB1Times2 : FormulaInterface :=
  { GetExpression := "B1*2", GetReferencedCells := [B1],
    body := Expr.mul (Expr.ref B1) (Expr.num 2) }

/-- The sheet after `Set(A1, "5")` and `Set(B1, "=A1+1")`. -/
def sheetB1ReadsA1 : Sheet :=
  [(A1, { impl_ := Impl.TextImpl "5", incoming_references_ := [A1],
          outgoing_references_ := [], cache_ := none }),
   (B1, { impl_ := Impl.FormulaImpl formulaA1Plus1, incoming_references_ := [],
          outgoing_references_ := [A1], cache_ := none })]

/-- The sheet `sheetB1ReadsA1` with the content `10` committed to `A1`, as it
is when `Set(A1, "10")` starts its invalidation walk. -/
def sheetB1ReadsA1Ten : Sheet :=
  [(A1, { impl_ := Impl.TextImpl "10", incoming_references_ := [A1],
          outgoing_references_ := [], cache_ := none }),
   (B1, { impl_ := Impl.FormulaImpl formulaA1Plus1, incoming_references_ := [],
          outgoing_references_ := [A1], cache_ := none })]

/-- The sheet after `Set(A1, "5")`, `Set(B1, "=A1+1")`, `Set(C1, "=B1*2")` and
`GetValue(C1)`. -/
def sheetChain : Sheet :=
  [(A1, { impl_ := Impl.TextImpl "5", incoming_references_ := [A1],
          outgoing_references_ := [], cache_ := some (Value.text "5") }),
   (B1, { impl_ := Impl.FormulaImpl formulaA1Plus1, incoming_references_ := [B1],
          outgoing_references_ := [A1], cache_ := some (Value.number 6) }),
   (C1, { impl_ := Impl.FormulaImpl formulaB1Times2, incoming_references_ := [],
          outgoing_references_ := [B1], cache_ := some (Value.number 12) })]

/-- The sheet `sheetChain` with the content `10` committed to `A1`, as it is
when `Set(A1, "10")` starts its invalidation walk. -/
def sheetChainTen : Sheet :=
  [(A1, { impl_ := Impl.TextImpl "10", incoming_references_ := [A1],
          outgoing_references_ := [], cache_ := none }),
   (B1, { impl_ := Impl.FormulaImpl formulaA1Plus1, incoming_references_ := [B1],
          outgoing_references_ := [A1], cache_ := some (Value.number 6) }),
   (C1, { impl_ := Impl.FormulaImpl formulaB1Times2, incoming_references_ := [],
          outgoing_references_ := [B1], cache_ := some (Value.number 12) })]

/-- The calls `Set(B1, "5")`, `Set(A1, "=B1")`, `Set(C1, "=B1")`,
`GetValue(C1)`, `Set(A1, "")`: two cells read `B1`, then one stops. -/
def callsTwoReaders : List Call :=
  [Call.Set B1 "5", Call.Set A1 "=B1", Call.Set C1 "=B1", Call.GetValue C1, Call.Set A1 ""]

/-- The sheet after `callsTwoReaders`. -/
def sheetTwoReaders : Sheet :=
  [(B1, { impl_ := Impl.TextImpl "5", incoming_references_ := [],
          outgoing_references_ := [], cache_ := some (Value.text "5") }),
   (A1, { impl_ := Impl.EmptyImpl, incoming_references_ := [],
          outgoing_references_ := [], cache_ := none }),
   (C1, { impl_ := Impl.FormulaImpl formulaB1, incoming_references_ := [],
          outgoing_references_ := [B1], cache_ := some (Value.number 5) })]

/-- The sheet after `callsTwoReaders` and `Set(B1, "7")`. -/
def sheetStale : Sheet :=
  [(B1, { impl_ := Impl.TextImpl "7", incoming_references_ := [],
          outgoing_references_ := [], cache_ := none }),
   (A1, { impl_ := Impl.EmptyImpl, incoming_references_ := [],
          outgoing_references_ := [], cache_ := none }),
   (C1, { impl_ := Impl.FormulaImpl formulaB1, incoming_references_ := [],
          outgoing_references_ := [B1], cache_ := some (Value.number 5) })]

/-- The sheet after `Set(A1, "=B1")` and `Clear(A1)`. -/
def sheetCleared : Sheet :=
  [(B1, { impl_ := Impl.EmptyImpl, incoming_references_ := [B1], outgoing_references_ := [],
          cache_ := none }),
   (A1, { impl_ := Impl.EmptyImpl, incoming_references_ := [],
          outgoing_references_ := [B1], cache_ := none })]

/-- An edge of the dependency graph: `b` is in the stored outgoing set of the
cell at `a`. -/
def OutEdge (s : Sheet) (a b : Position) : Prop := b ∈ s.out a

/-- The dependency graph has no directed cycle: no non-empty path of outgoing
edges leads from a position back to itself. -/
def Acyclic (s : Sheet) : Prop := ∀ v, ¬ Relation.TransGen (OutEdge s) v v

/-- Every stored cell is Empty and has empty edge sets. -/
def AllEmpty (s : Sheet) : Prop :=
  ∀ p c, s.GetCellByIndex p = some c →
    c.impl_ = Impl.EmptyImpl ∧ c.incoming_references_ = [] ∧ c.outgoing_references_ = []

/-- The call is a `Cell::Set`. -/
def Call.isSet : Call → Bool
  | Call.Set _ _ => true
  | _ => false

/-- The stores reachable from `s0` by a finite sequence of calls that satisfy
`allowed`, made on arbitrary cells, each of which returns: normally or, for
`Cell::Set`, by raising (the store is then the one the call leaves behind). -/
inductive Reachable (ParseFormula : String → Option FormulaInterface) (allowed : Call → Bool)
    (s0 : Sheet) : Sheet → Prop where
  | start : Reachable ParseFormula allowed s0 s0
  | step {s : Sheet} {c : Call} {fuel : Nat} {r : SetResult} :
      Reachable ParseFormula allowed s0 s → allowed c = true →
      Call.exec ParseFormula fuel s c = some r → Reachable ParseFormula allowed s0 r.sheet

/-- The sheet after `Set(A1, "5")`, `Set(B1, "=A1+1")` and `Set(C1, "=B1*2")`,
before any value is read. -/
def sheetChainFresh : Sheet :=
  [(A1, { impl_ := Impl.TextImpl "5", incoming_references_ := [A1],
          outgoing_references_ := [], cache_ := none }),
   (B1, { impl_ := Impl.FormulaImpl formulaA1Plus1, incoming_references_ := [B1],
          outgoing_references_ := [A1], cache_ := none }),
   (C1, { impl_ := Impl.FormulaImpl formulaB1Times2, incoming_references_ := [],
          outgoing_references_ := [B1], cache_ := none })]

/-- The text made of the escape marker followed by `123`. -/
def textEscaped123 : String := String.mk [ESCAPE_SIGN, '1', '2', '3']

/-- The text made of two escape markers followed by `x`. -/
def textTwiceEscaped : String := String.mk [ESCAPE_SIGN, ESCAPE_SIGN, 'x']

/-- What `TextImpl::GetValue` returns for the content `t`: `t` without its
first character when `t` begins with the escape marker, `t` itself otherwise. -/
def unescaped (t : String) : String :=
  if t.data.head? = some ESCAPE_SIGN then String.mk t.data.tail else t

/-- The store of `Cell::Set` on the cell at `X` at the moment its invalidation
walk starts: the candidate `impl` is committed to the store `s2` the cycle
check left behind, the edges are updated and the cache of `X` is cleared. -/
def Set.committed (s2 : Sheet) (X : Position) (impl : Impl) : Sheet :=
  InvalidCache (UpdateReferences (s2.put X { s2.cell X with impl_ := impl }) X) X

/-- The sheet after `Set` of the text `textEscaped123` on the cell `A1` of a
sheet without cells. -/
def sheetEscaped123 : Sheet :=
  [(A1, { impl_ := Impl.TextImpl textEscaped123, incoming_references_ := [],
          outgoing_references_ := [], cache_ := none })]

/-- The content `Cell::Set` chooses, without consulting the parser, for a text
that is not parsed as a formula: Empty for the empty text, Literal-Text
otherwise. -/
def literalContent (t : String) : Impl :=
  if t.data = [] then Impl.EmptyImpl else Impl.TextImpl t

/-- A parser that rejects every text. -/
def rejectAll (_ : String) : Option FormulaInterface := none

/-- The parsed formula `C1` of the sample engine. -/
def formulaC1 : FormulaInterface :=
  { GetExpression := "C1", GetReferencedCells := [C1], body := Expr.ref C1 }

/-- The sheet after `Set(A1, "=C1")`, `Set(B1, "=C1")` and `Set(A1, "")`: the
cell `B1` still reads `C1`. -/
def sheetOneReaderLeft : Sheet :=
  [(C1, { impl_ := Impl.EmptyImpl, incoming_references_ := [], outgoing_references_ := [],
          cache_ := none }),
   (A1, { impl_ := Impl.EmptyImpl, incoming_references_ := [], outgoing_references_ := [],
          cache_ := none }),
   (B1, { impl_ := Impl.FormulaImpl formulaC1, incoming_references_ := [],
          outgoing_references_ := [C1], cache_ := none })]

/-- An edge of the graph defined by the cells' current contents: from a cell
to a valid position its content variant reports by `GetReferencedCells()`,
where the edges of `X` are those of the candidate reference list `R`. -/
def ContentEdge (s : Sheet) (X : Position) (R : List Position) (a b : Position) : Prop :=
  b.IsValid = true ∧ if a = X then b ∈ R else b ∈ (s.cell a).GetReferencedCells

/-! ## The traversals with a record of their `MakeCell` calls -/

/-- The result of a recorded cycle check: the result of the check and the
positions passed to `MakeCell`, in the order of the calls. -/
abbrev CheckRecord := CheckResult × List Position

/-- The loop `IsCircularFormula.loop`, recording in addition every position
that is passed to `MakeCell` (and then recursed into). -/
def IsCircularFormula.loopLog (recur : Sheet → Cells → Cells → Option CheckRecord) :
    List Position → Sheet → Cells → Option CheckRecord
  | [], s, visit => some ((false, s, visit), [])
  | pos :: rest, s, visit =>
    if !pos.IsValid || decide (pos ∈ visit) then
      IsCircularFormula.loopLog recur rest s visit
    else
      let visit1 := Cells.insert visit pos
      let s1 := MakeCell s pos
      match recur s1 (s1.cell pos).outgoing_references_ visit1 with
      | none => none
      | some ((true, s2, visit2), log) => some ((true, s2, visit2), pos :: log)
      | some ((false, s2, visit2), log) =>
        match IsCircularFormula.loopLog recur rest s2 visit2 with
        | none => none
        | some (r, log2) => some (r, pos :: (log ++ log2))

/-- The method `Cell::IsCircularFormula` as embedded by `IsCircularFormula`,
recording in addition every position that is passed to `MakeCell`. -/
def IsCircularFormulaLog : Nat → Sheet → Position → Cells → Cells → Option CheckRecord
  | 0, _, _, _, _ => none
  | fuel + 1, s, pos_, outgoing_references, visit =>
    if pos_ ∈ outgoing_references then some ((true, s, visit), [])
    else
      IsCircularFormula.loopLog (fun s1 out v => IsCircularFormulaLog fuel s1 pos_ out v)
        outgoing_references s visit

/-- The loop body `UpdateReferences.dropEdge`, recording in addition the
position passed to `MakeCell`. -/
def UpdateReferences.dropEdgeLog (acc : Sheet × List Position) (pos : Position) :
    Sheet × List Position :=
  if !pos.IsValid then acc
  else
    let s1 := MakeCell acc.1 pos
    (s1.put pos { s1.cell pos with
      incoming_references_ := Cells.erase (s1.cell pos).incoming_references_ pos },
     acc.2 ++ [pos])

/-- The loop body `UpdateReferences.addEdge`, recording in addition the
position passed to `MakeCell`. -/
def UpdateReferences.addEdgeLog (pos_ : Position) (acc : Sheet × List Position)
    (pos : Position) : Sheet × List Position :=
  if !pos.IsValid then acc
  else
    let s1 := acc.1.put pos_ { acc.1.cell pos_ with
      outgoing_references_ := Cells.insert (acc.1.cell pos_).outgoing_references_ pos }
    let s2 := MakeCell s1 pos
    (s2.put pos { s2.cell pos with
      incoming_references_ := Cells.insert (s2.cell pos).incoming_references_ pos },
     acc.2 ++ [pos])

/-- The method `Cell::UpdateReferences` as embedded by `UpdateReferences`,
recording in addition every position that is passed to `MakeCell`. -/
def UpdateReferencesLog (s : Sheet) (pos_ : Position) : Sheet × List Position :=
  let a1 := (s.cell pos_).outgoing_references_.foldl UpdateReferences.dropEdgeLog (s, [])
  let s2 := a1.1.put pos_ { a1.1.cell pos_ with outgoing_references_ := [] }
  (s2.cell pos_).GetReferencedCells.foldl (UpdateReferences.addEdgeLog pos_) (s2, a1.2)

/-- The loop `InvalidAllDependentCaches.loop`, recording in addition every
position that is passed to `MakeCell`. -/
def InvalidAllDependentCaches.loopLog (recur : Sheet → Cells → Option (Sheet × List Position)) :
    List Position → Sheet → Option (Sheet × List Position)
  | [], s => some (s, [])
  | pos :: rest, s =>
    if !pos.IsValid then InvalidAllDependentCaches.loopLog recur rest s
    else
      let s1 := MakeCell s pos
      let s2 := InvalidCache s1 pos
      match recur s2 (s2.cell pos).incoming_references_ with
      | none => none
      | some (s3, log) =>
        match InvalidAllDependentCaches.loopLog recur rest s3 with
        | none => none
        | some (s4, log2) => some (s4, pos :: (log ++ log2))

/-- The method `Cell::InvalidAllDependentCaches` as embedded by
`InvalidAllDependentCaches`, recording in addition every position that is
passed to `MakeCell`. -/
def InvalidAllDependentCachesLog : Nat → Sheet → Cells → Option (Sheet × List Position)
  | 0, _, _ => none
  | fuel + 1, s, incoming_references =>
    InvalidAllDependentCaches.loopLog
      (fun s1 inc => InvalidAllDependentCachesLog fuel s1 inc) incoming_references s

/-- The call is a `Cell::Set` or a `Cell::Clear`. -/
def Call.isSetOrClear : Call → Bool
  | Call.Set _ _ => true
  | Call.Clear _ => true
  | Call.GetValue _ => false

/-- A sheet in which `A1` reads `B1` and `B1` reads `A1`: its stored outgoing
sets contain a cycle. -/
def sheetCyclic : Sheet :=
  [(A1, { impl_ := Impl.FormulaImpl formulaB1, incoming_references_ := [],
          outgoing_references_ := [B1], cache_ := none }),
   (B1, { impl_ := Impl.FormulaImpl formulaA1, incoming_references_ := [],
          outgoing_references_ := [A1], cache_ := none })]

/-- The invalid position (-1, -1). -/
def invalidPosition : Position := { row := -1, col := -1 }

/-- A parser whose formulas all report the reference list `(-1, -1), B1`: an
invalid position followed by a valid one. -/
def parseInvalidAndB1 (text : String) : Option FormulaInterface :=
  some { GetExpression := text, GetReferencedCells := [invalidPosition, B1],
         body := Expr.ref B1 }

/-- The sheet after `Set(A1, "=x")` with the parser `parseInvalidAndB1`,
followed by `Clear(A1)`. -/
def sheetAfterInvalidRef : Sheet :=
  [(B1, { impl_ := Impl.EmptyImpl, incoming_references_ := [B1], outgoing_references_ := [],
          cache_ := none }),
   (A1, { impl_ := Impl.EmptyImpl, incoming_references_ := [],
          outgoing_references_ := [B1], cache_ := none })]

/-! ## The hash of a position -/

/-- The member `i_hasher` of `HashPosition`, a `std::hash<int>`: taken as the
conversion of the `int` to the 64-bit `size_t` (the value modulo 2^64, which is
18446744073709551616). -/
def i_hasher (x : Int) : Nat := (x % 18446744073709551616).toNat

/-- The call operator `HashPosition::operator()`: `hash_row + 27 * hash_col` in
`size_t` arithmetic, which wraps around at 2^64. -/
def HashPosition (pos : Position) : Nat :=
  (i_hasher pos.row + 27 * i_hasher pos.col) % 18446744073709551616

/-! ## Basic facts about the store -/

theorem get_put_same (s : Sheet) (p : Position) (c : Cell) :
    (s.put p c).GetCellByIndex p = some c := by
  induction s with
  | nil => simp [Sheet.put, Sheet.GetCellByIndex]
  | cons hd tl ih =>
    obtain ⟨q, d⟩ := hd
    by_cases h : q = p
    · simp [Sheet.put, Sheet.GetCellByIndex, h]
    · simp [Sheet.put, Sheet.GetCellByIndex, h, ih]

theorem get_put_other (s : Sheet) (p q : Position) (c : Cell) (h : q ≠ p) :
    (s.put p c).GetCellByIndex q = s.GetCellByIndex q := by
  induction s with
  | nil => simp [Sheet.put, Sheet.GetCellByIndex, Ne.symm h]
  | cons hd tl ih =>
    obtain ⟨r, d⟩ := hd
    by_cases h1 : r = p
    · subst h1
      simp [Sheet.put, Sheet.GetCellByIndex, Ne.symm h]
    · by_cases h2 : r = q
      · subst h2
        simp [Sheet.put, Sheet.GetCellByIndex, h1]
      · simp [Sheet.put, Sheet.GetCellByIndex, h1, h2, ih]

theorem put_get_self (s : Sheet) (p : Position) (c : Cell)
    (h : s.GetCellByIndex p = some c) : s.put p c = s := by
  induction s with
  | nil => simp [Sheet.GetCellByIndex] at h
  | cons hd tl ih =>
    obtain ⟨q, d⟩ := hd
    by_cases h1 : q = p
    · simp [Sheet.GetCellByIndex, h1] at h
      simp [Sheet.put, h1, h]
    · simp [Sheet.GetCellByIndex, h1] at h
      simp [Sheet.put, h1, ih h]

theorem cell_put_same (s : Sheet) (p : Position) (c : Cell) : (s.put p c).cell p = c := by
  simp [Sheet.cell, get_put_same]

theorem cell_put_other (s : Sheet) (p q : Position) (c : Cell) (h : q ≠ p) :
    (s.put p c).cell q = s.cell q := by
  simp [Sheet.cell, get_put_other s p q c h]

theorem cell_put (s : Sheet) (p q : Position) (c : Cell) :
    (s.put p c).cell q = if q = p then c else s.cell q := by
  by_cases h : q = p
  · subst h; simp [cell_put_same]
  · simp [h, cell_put_other s p q c h]

theorem Grown.refl (s : Sheet) : Sheet.Grown s s := fun _ => Or.inl rfl

theorem Grown.trans {s s1 s2 : Sheet} (h1 : Sheet.Grown s s1) (h2 : Sheet.Grown s1 s2) :
    Sheet.Grown s s2 := by
  intro p
  rcases h1 p with a | ⟨a, b⟩
  · rcases h2 p with c | ⟨c, d⟩
    · exact Or.inl (c.trans a)
    · exact Or.inr ⟨a ▸ c, d⟩
  · rcases h2 p with c | ⟨c, d⟩
    · exact Or.inr ⟨a, c.trans b⟩
    · exact Or.inr ⟨a, d⟩

theorem Grown.cell {s s1 : Sheet} (h : Sheet.Grown s s1) (p : Position) :
    s1.cell p = s.cell p := by
  rcases h p with a | ⟨a, b⟩
  · simp [Sheet.cell, a]
  · simp [Sheet.cell, a, b]

theorem Grown.out {s s1 : Sheet} (h : Sheet.Grown s s1) : s1.out = s.out := by
  funext p
  simp [Sheet.out, Grown.cell h p]

theorem MakeCell_grown (s : Sheet) (pos : Position) : Sheet.Grown s (MakeCell s pos) := by
  intro p
  unfold MakeCell Sheet.materializeEmpty
  cases h : s.GetCellByIndex pos with
  | some c => exact Or.inl rfl
  | none =>
    simp only [h]
    by_cases hp : p = pos
    · subst hp
      exact Or.inr ⟨h, get_put_same s p Cell.new⟩
    · exact Or.inl (get_put_other s pos p Cell.new hp)

theorem MakeCell_cell (s : Sheet) (pos p : Position) : (MakeCell s pos).cell p = s.cell p :=
  Grown.cell (MakeCell_grown s pos) p

/-! ## The cycle check -/

theorem mem_insert (cs : Cells) (p q : Position) :
    q ∈ Cells.insert cs p ↔ q = p ∨ q ∈ cs := by
  unfold Cells.insert
  by_cases h : p ∈ cs
  · simp only [h, if_true]
    constructor
    · exact Or.inr
    · rintro (rfl | h1)
      · exact h
      · exact h1
  · simp only [h, if_false, List.mem_append, List.mem_singleton]
    tauto

theorem mem_ofVector (l : List Position) (q : Position) : q ∈ Cells.ofVector l ↔ q ∈ l := by
  have key : ∀ (l : List Position) (acc : Cells),
      q ∈ l.foldl Cells.insert acc ↔ q ∈ acc ∨ q ∈ l := by
    intro l
    induction l with
    | nil => intro acc; simp
    | cons a tl ih =>
      intro acc
      simp only [List.foldl_cons, ih, mem_insert, List.mem_cons]
      tauto
  simpa [Cells.ofVector] using key l []

theorem Expanded.mono {g : Position → Cells} {X : Position} {V W : Cells} {v : Position}
    (h : Expanded g X V v) (hVW : V ⊆ W) : Expanded g X W v :=
  ⟨h.1, h.2.1, fun w hw hv => hVW (h.2.2 w hw hv)⟩

theorem ClosesCycle.of_successor {g : Position → Cells} {X p : Position} {R : Cells}
    (hp : p ∈ R) (hv : p.IsValid = true) (h : ClosesCycle g X (g p)) : ClosesCycle g X R := by
  refine Or.inr ⟨p, hp, hv, ?_⟩
  rcases h with h | ⟨q, hq, _, hqX⟩
  · exact Relation.TransGen.single ⟨hv, h⟩
  · exact Relation.TransGen.head ⟨hv, hq⟩ hqX

theorem loop_spec (X : Position) (recur : Sheet → Cells → Cells → Option CheckResult)
    (hrec : ∀ s o v r, recur s o v = some r → CheckSpec X s o v r) :
    ∀ (rest : List Position) (s : Sheet) (visit : Cells) (r : CheckResult),
      IsCircularFormula.loop recur rest s visit = some r →
      Sheet.Grown s r.2.1 ∧ visit ⊆ r.2.2 ∧
      (r.1 = true → ∃ p ∈ rest, p.IsValid = true ∧ ClosesCycle s.out X (s.out p)) ∧
      (r.1 = false → (∀ p ∈ rest, p.IsValid = true → p ∈ r.2.2) ∧
        ∀ v ∈ r.2.2, v ∉ visit → Expanded s.out X r.2.2 v) := by
  intro rest
  induction rest with
  | nil =>
    intro s visit r h
    simp only [IsCircularFormula.loop, Option.some.injEq] at h
    subst h
    refine ⟨Grown.refl s, List.Subset.refl _, by simp, ?_⟩
    intro _
    exact ⟨by simp, fun v hv hn => absurd hv hn⟩
  | cons pos rest ih =>
    intro s visit r h
    unfold IsCircularFormula.loop at h
    by_cases hskip : (!pos.IsValid || decide (pos ∈ visit)) = true
    · rw [if_pos hskip] at h
      obtain ⟨hg, hsub, ht, hf⟩ := ih s visit r h
      refine ⟨hg, hsub, ?_, ?_⟩
      · intro hb
        obtain ⟨p, hp, hpv⟩ := ht hb
        exact ⟨p, List.mem_cons_of_mem _ hp, hpv⟩
      · intro hb
        refine ⟨?_, (hf hb).2⟩
        intro p hp hv
        rcases List.mem_cons.1 hp with rfl | hp
        · simp only [Bool.or_eq_true, Bool.not_eq_true', decide_eq_true_eq] at hskip
          rcases hskip with hskip | hskip
          · rw [hv] at hskip; exact absurd hskip (by decide)
          · exact hsub hskip
        · exact (hf hb).1 p hp hv
    · rw [if_neg hskip] at h
      simp only [Bool.or_eq_true, Bool.not_eq_true', decide_eq_true_eq, not_or,
        Bool.not_eq_false] at hskip
      obtain ⟨hvalid, hfresh⟩ := hskip
      have hcell : (MakeCell s pos).out = s.out := Grown.out (MakeCell_grown s pos)
      have hout : ((MakeCell s pos).cell pos).outgoing_references_ = s.out pos := by
        rw [MakeCell_cell]; rfl
      simp only [] at h
      cases hr : recur (MakeCell s pos) ((MakeCell s pos).cell pos).outgoing_references_
          (Cells.insert visit pos) with
      | none => simp [hr] at h
      | some r1 =>
        obtain ⟨b1, s2, visit2⟩ := r1
        obtain ⟨hg1, hsub1, ht1, hf1⟩ := hrec _ _ _ _ hr
        simp only [hcell, hout] at hg1 hsub1 ht1 hf1
        have hsubv : visit ⊆ visit2 := fun q hq => hsub1 ((mem_insert visit pos q).2 (Or.inr hq))
        have hposv : pos ∈ visit2 := hsub1 ((mem_insert visit pos pos).2 (Or.inl rfl))
        cases b1 with
        | true =>
          simp only [hr, Option.some.injEq] at h
          subst h
          refine ⟨Grown.trans (MakeCell_grown s pos) hg1, hsubv, ?_, by simp⟩
          intro _
          exact ⟨pos, List.mem_cons_self _ _, hvalid, ht1 rfl⟩
        | false =>
          simp only [hr] at h
          obtain ⟨hg2, hsub2, ht2, hf2⟩ := ih s2 visit2 r h
          have hgs : Sheet.Grown s s2 := Grown.trans (MakeCell_grown s pos) hg1
          have hout2 : s2.out = s.out := Grown.out hgs
          simp only [hout2] at ht2 hf2
          refine ⟨Grown.trans hgs hg2, fun q hq => hsub2 (hsubv hq), ?_, ?_⟩
          · intro hb
            obtain ⟨p, hp, hpv⟩ := ht2 hb
            exact ⟨p, List.mem_cons_of_mem _ hp, hpv⟩
          · intro hb
            obtain ⟨hfa, hfb⟩ := hf2 hb
            obtain ⟨hX1, hall1, hexp1⟩ := hf1 rfl
            refine ⟨?_, ?_⟩
            · intro p hp hv
              rcases List.mem_cons.1 hp with rfl | hp
              · exact hsub2 hposv
              · exact hfa p hp hv
            · intro v hv hnv
              by_cases hv2 : v ∈ visit2
              · by_cases hv1 : v ∈ Cells.insert visit pos
                · rcases (mem_insert visit pos v).1 hv1 with rfl | hv1
                  · exact ⟨hvalid, hX1, fun w hw hwv => hsub2 (hall1 w hw hwv)⟩
                  · exact absurd hv1 hnv
                · exact Expanded.mono (hexp1 v hv2 hv1) hsub2
              · exact hfb v hv hv2

theorem IsCircularFormula_spec (X : Position) :
    ∀ (fuel : Nat) (s : Sheet) (out visit : Cells) (r : CheckResult),
      IsCircularFormula fuel s X out visit = some r → CheckSpec X s out visit r := by
  intro fuel
  induction fuel with
  | zero => intro s out visit r h; simp [IsCircularFormula] at h
  | succ n ih =>
    intro s out visit r h
    unfold IsCircularFormula at h
    by_cases hX : X ∈ out
    · rw [if_pos hX] at h
      simp only [Option.some.injEq] at h
      subst h
      exact ⟨Grown.refl s, List.Subset.refl _, fun _ => Or.inl hX, by simp⟩
    · rw [if_neg hX] at h
      obtain ⟨hg, hsub, ht, hf⟩ :=
        loop_spec X (fun s1 o v => IsCircularFormula n s1 X o v) (fun s1 o v r1 h1 => ih s1 o v r1 h1)
          out s visit r h
      refine ⟨hg, hsub, ?_, ?_⟩
      · intro hb
        obtain ⟨p, hp, hv, hc⟩ := ht hb
        exact ClosesCycle.of_successor hp hv hc
      · intro hb
        exact ⟨hX, (hf hb).1, (hf hb).2⟩

theorem mem_of_get {s : Sheet} {p : Position} {c : Cell} (h : s.GetCellByIndex p = some c) :
    (p, c) ∈ s := by
  induction s with
  | nil => simp [Sheet.GetCellByIndex] at h
  | cons hd tl ih =>
    obtain ⟨q, d⟩ := hd
    by_cases h1 : q = p
    · simp [Sheet.GetCellByIndex, h1] at h
      simp [h1, h]
    · simp [Sheet.GetCellByIndex, h1] at h
      exact List.mem_cons_of_mem _ (ih h)

theorem out_subset_allOut (s : Sheet) (v w : Position) (h : w ∈ s.out v) : w ∈ s.allOut := by
  unfold Sheet.out Sheet.cell at h
  cases hg : s.GetCellByIndex v with
  | none => simp [hg, Cell.new] at h
  | some c =>
    simp only [hg, Option.getD_some] at h
    exact List.mem_flatMap.2 ⟨(v, c), mem_of_get hg, h⟩

theorem unvisited_insert_lt (U visit : Cells) (pos : Position) (hU : pos ∈ U)
    (hfresh : pos ∉ visit) :
    (U.toFinset \ (Cells.insert visit pos).toFinset).card < (U.toFinset \ visit.toFinset).card := by
  apply Finset.card_lt_card
  have hsub : U.toFinset \ (Cells.insert visit pos).toFinset ⊆ U.toFinset \ visit.toFinset := by
    intro q hq
    simp only [Finset.mem_sdiff, List.mem_toFinset, mem_insert, not_or] at hq ⊢
    exact ⟨hq.1, hq.2.2⟩
  refine (Finset.ssubset_iff_of_subset hsub).2 ⟨pos, ?_, ?_⟩
  · simp only [Finset.mem_sdiff, List.mem_toFinset]
    exact ⟨hU, hfresh⟩
  · intro hmem
    rw [Finset.mem_sdiff, List.mem_toFinset, List.mem_toFinset] at hmem
    exact hmem.2 ((mem_insert visit pos pos).2 (Or.inl rfl))

theorem unvisited_mono (U visit visit1 : Cells) (h : visit ⊆ visit1) :
    (U.toFinset \ visit1.toFinset).card ≤ (U.toFinset \ visit.toFinset).card := by
  apply Finset.card_le_card
  intro q hq
  simp only [Finset.mem_sdiff, List.mem_toFinset] at hq ⊢
  exact ⟨hq.1, fun hv => hq.2 (h hv)⟩

theorem IsCircularFormula_returns (X : Position) (g : Position → Cells) (U : List Position)
    (hU : ∀ v, ∀ w ∈ g v, w ∈ U) :
    ∀ (fuel : Nat) (s : Sheet) (out visit : Cells), s.out = g → (∀ p ∈ out, p ∈ U) →
      (U.toFinset \ visit.toFinset).card < fuel →
      ∃ r, IsCircularFormula fuel s X out visit = some r := by
  intro fuel
  induction fuel with
  | zero => intro s out visit _ _ h; exact absurd h (Nat.not_lt_zero _)
  | succ n ih =>
    have hloop : ∀ (rest : List Position) (s : Sheet) (visit : Cells), s.out = g →
        (∀ p ∈ rest, p ∈ U) → (U.toFinset \ visit.toFinset).card ≤ n →
        ∃ r, IsCircularFormula.loop (fun s1 o v => IsCircularFormula n s1 X o v) rest s visit
          = some r := by
      intro rest
      induction rest with
      | nil => intro s visit _ _ _; exact ⟨_, rfl⟩
      | cons pos rest ihr =>
        intro s visit hs hrest hcard
        have hrest1 : ∀ p ∈ rest, p ∈ U := fun p hp => hrest p (List.mem_cons_of_mem _ hp)
        unfold IsCircularFormula.loop
        by_cases hskip : (!pos.IsValid || decide (pos ∈ visit)) = true
        · rw [if_pos hskip]
          exact ihr s visit hs hrest1 hcard
        · rw [if_neg hskip]
          simp only [Bool.or_eq_true, Bool.not_eq_true', decide_eq_true_eq, not_or,
            Bool.not_eq_false] at hskip
          obtain ⟨_, hfresh⟩ := hskip
          have hs1 : (MakeCell s pos).out = g := (Grown.out (MakeCell_grown s pos)).trans hs
          have hlt := unvisited_insert_lt U visit pos (hrest pos (List.mem_cons_self _ _)) hfresh
          have hout : ∀ p ∈ ((MakeCell s pos).cell pos).outgoing_references_, p ∈ U := by
            intro p hp
            have : p ∈ (MakeCell s pos).out pos := hp
            rw [hs1] at this
            exact hU pos p this
          obtain ⟨r1, hr1⟩ := ih (MakeCell s pos) _ (Cells.insert visit pos) hs1 hout
            (Nat.lt_of_lt_of_le hlt hcard)
          obtain ⟨b1, s2, visit2⟩ := r1
          obtain ⟨hg1, hsub1, _, _⟩ := IsCircularFormula_spec X n _ _ _ _ hr1
          simp only [hr1]
          cases b1 with
          | true => exact ⟨_, rfl⟩
          | false =>
            simp only []
            apply ihr s2 visit2 ((Grown.out hg1).trans hs1) hrest1
            exact Nat.le_trans (unvisited_mono U _ _ hsub1)
              (Nat.le_trans (Nat.le_of_lt hlt) hcard)
    intro s out visit hs hout hcard
    unfold IsCircularFormula
    by_cases hX : X ∈ out
    · rw [if_pos hX]; exact ⟨_, rfl⟩
    · rw [if_neg hX]
      exact hloop out s visit hs hout (Nat.le_of_lt_succ hcard)

theorem not_closesCycle_of_false {X : Position} {fuel : Nat} {s s1 : Sheet} {R V : Cells}
    (h : IsCircularFormula fuel s X R [] = some (false, s1, V)) : ¬ ClosesCycle s.out X R := by
  obtain ⟨_, _, _, hf⟩ := IsCircularFormula_spec X fuel s R [] _ h
  obtain ⟨hX, hR, hexp⟩ := hf rfl
  simp only [List.not_mem_nil, not_false_eq_true, forall_true_left] at hexp
  have key : ∀ v, Relation.TransGen (TraversalStep s.out) v X → v ∈ V → False := by
    intro v hv
    refine Relation.TransGen.head_induction_on
      (P := fun v _ => v ∈ V → False) hv ?_ ?_
    · intro a hstep ha
      exact (hexp a ha).2.1 hstep.2
    · intro a c hstep hrest ihc ha
      have hcv : c.IsValid = true := by
        rcases Relation.TransGen.head'_iff.1 hrest with ⟨d, hcd, _⟩
        exact hcd.1
      exact ihc ((hexp a ha).2.2 c hstep.2 hcv)
  rintro (h1 | ⟨r, hr, hv, hreach⟩)
  · exact hX h1
  · exact key r hreach (hR r hr hv)

theorem IsCircular_true_iff (s : Sheet) (X : Position) (impl : Impl) :
    (∃ fuel s1, IsCircular fuel s X impl = some (true, s1)) ↔
      ClosesCycle s.out X (Cells.ofVector impl.GetReferencedCells) := by
  constructor
  · rintro ⟨fuel, s1, h⟩
    unfold IsCircular at h
    cases hr : IsCircularFormula fuel s X (Cells.ofVector impl.GetReferencedCells) [] with
    | none => simp [hr] at h
    | some r =>
      obtain ⟨b, s2, V⟩ := r
      simp only [hr, Option.map_some', Option.some.injEq, Prod.mk.injEq] at h
      obtain ⟨hb, _⟩ := h
      subst hb
      exact (IsCircularFormula_spec X fuel s _ [] _ hr).2.2.1 rfl
  · intro hc
    let U : List Position := Cells.ofVector impl.GetReferencedCells ++ s.allOut
    obtain ⟨r, hr⟩ := IsCircularFormula_returns X s.out U
      (fun v w hw => List.mem_append_right _ (out_subset_allOut s v w hw))
      ((U.toFinset \ ([] : Cells).toFinset).card + 1) s
      (Cells.ofVector impl.GetReferencedCells) [] rfl
      (fun p hp => List.mem_append_left _ hp) (Nat.lt_succ_self _)
    obtain ⟨b, s2, V⟩ := r
    cases b with
    | false => exact absurd hc (not_closesCycle_of_false hr)
    | true =>
      refine ⟨(U.toFinset \ ([] : Cells).toFinset).card + 1, s2, ?_⟩
      unfold IsCircular
      simp only [hr, Option.map_some']

theorem IsCircular_false_iff (s : Sheet) (X : Position) (impl : Impl) :
    (∃ fuel s1, IsCircular fuel s X impl = some (false, s1)) ↔
      ¬ ClosesCycle s.out X (Cells.ofVector impl.GetReferencedCells) := by
  constructor
  · rintro ⟨fuel, s1, h⟩
    unfold IsCircular at h
    cases hr : IsCircularFormula fuel s X (Cells.ofVector impl.GetReferencedCells) [] with
    | none => simp [hr] at h
    | some r =>
      obtain ⟨b, s2, V⟩ := r
      simp only [hr, Option.map_some', Option.some.injEq, Prod.mk.injEq] at h
      obtain ⟨hb, _⟩ := h
      subst hb
      exact not_closesCycle_of_false hr
  · intro hc
    let U : List Position := Cells.ofVector impl.GetReferencedCells ++ s.allOut
    obtain ⟨r, hr⟩ := IsCircularFormula_returns X s.out U
      (fun v w hw => List.mem_append_right _ (out_subset_allOut s v w hw))
      ((U.toFinset \ ([] : Cells).toFinset).card + 1) s
      (Cells.ofVector impl.GetReferencedCells) [] rfl
      (fun p hp => List.mem_append_left _ hp) (Nat.lt_succ_self _)
    obtain ⟨b, s2, V⟩ := r
    cases b with
    | true => exact absurd ((IsCircularFormula_spec X _ s _ [] _ hr).2.2.1 rfl) hc
    | false =>
      refine ⟨(U.toFinset \ ([] : Cells).toFinset).card + 1, s2, ?_⟩
      unfold IsCircular
      simp only [hr, Option.map_some']

/-! ## Rejected edits -/

theorem Set_circular_iff (ParseFormula : String → Option FormulaInterface) (fuel : Nat)
    (s s1 : Sheet) (X : Position) (text : String) (impl : Impl)
    (hc : Set.candidate ParseFormula text = some impl) :
    Set ParseFormula fuel s X text = some (SetResult.CircularDependencyException s1) ↔
      IsCircular fuel s X impl = some (true, s1) := by
  unfold Set
  simp only [hc]
  cases hr : IsCircular fuel s X impl with
  | none => simp
  | some r =>
    obtain ⟨b, s2⟩ := r
    cases b with
    | true => simp
    | false =>
      simp only []
      cases InvalidAllDependentCaches fuel _ _ <;> simp

theorem IsCircular_grown {fuel : Nat} {s s1 : Sheet} {X : Position} {impl : Impl} {b : Bool}
    (h : IsCircular fuel s X impl = some (b, s1)) : Sheet.Grown s s1 := by
  unfold IsCircular at h
  cases hr : IsCircularFormula fuel s X (Cells.ofVector impl.GetReferencedCells) [] with
  | none => simp [hr] at h
  | some r =>
    obtain ⟨b1, s2, V⟩ := r
    simp only [hr, Option.map_some', Option.some.injEq, Prod.mk.injEq] at h
    obtain ⟨_, hs⟩ := h
    subst hs
    exact (IsCircularFormula_spec X fuel s _ [] _ hr).1

/-- Claim C1. When `Cell::Set` on the cell at `X` raises
`CircularDependencyException`, every position holds exactly the cell it held
before the call (same content variant, outgoing set, incoming set and cache),
except that a position that had no cell may now hold a freshly constructed
cell: Empty, with empty outgoing and incoming sets and no cached value. -/
theorem Set_cycle_rejection_atomic (ParseFormula : String → Option FormulaInterface)
    (fuel : Nat) (s s1 : Sheet) (X : Position) (text : String)
    (h : Set ParseFormula fuel s X text = some (SetResult.CircularDependencyException s1)) :
    ∀ p, s1.GetCellByIndex p = s.GetCellByIndex p ∨
      (s.GetCellByIndex p = none ∧ s1.GetCellByIndex p = some Cell.new) := by
  cases hc : Set.candidate ParseFormula text with
  | none => simp [Set, hc] at h
  | some impl => exact IsCircular_grown ((Set_circular_iff _ _ _ _ _ _ _ hc).1 h)

/-- Witness for C1: `Set("=A1")` on the cell `A1`, which holds the text `5` and
its memoized value, raises `CircularDependencyException` and `A1` is as before. -/
theorem Set_cycle_rejection_atomic_witness :
    Set sampleParseFormula 1 sheetA1Five A1 "=A1"
        = some (SetResult.CircularDependencyException sheetA1Five) ∧
      (Sheet.GetCellByIndex sheetA1Five A1 = Sheet.GetCellByIndex sheetA1Five A1 ∨
        (Sheet.GetCellByIndex sheetA1Five A1 = none ∧
          Sheet.GetCellByIndex sheetA1Five A1 = some Cell.new)) :=
  ⟨by decide,
   Set_cycle_rejection_atomic sampleParseFormula 1 sheetA1Five sheetA1Five A1 "=A1"
     (by decide) A1⟩

/-- Claim C2. For every store, cell `X` and candidate content, `Cell::IsCircular`
returns true exactly when the candidate's reference set contains `X` or `X` is
reachable from a valid position of that set by one or more stored outgoing
edges of the cells visited, it returns false exactly when that is not so, and
for every text with that candidate content `Cell::Set` raises
`CircularDependencyException` exactly in the first case. -/
theorem IsCircular_decides_reachability (s : Sheet) (X : Position) (impl : Impl) :
    ((∃ fuel s1, IsCircular fuel s X impl = some (true, s1)) ↔
      ClosesCycle s.out X (Cells.ofVector impl.GetReferencedCells)) ∧
    ((∃ fuel s1, IsCircular fuel s X impl = some (false, s1)) ↔
      ¬ ClosesCycle s.out X (Cells.ofVector impl.GetReferencedCells)) ∧
    ∀ (ParseFormula : String → Option FormulaInterface) (text : String),
      Set.candidate ParseFormula text = some impl →
      ((∃ fuel s1, Set ParseFormula fuel s X text
          = some (SetResult.CircularDependencyException s1)) ↔
        ClosesCycle s.out X (Cells.ofVector impl.GetReferencedCells)) := by
  refine ⟨IsCircular_true_iff s X impl, IsCircular_false_iff s X impl, ?_⟩
  intro ParseFormula text hc
  rw [← IsCircular_true_iff s X impl]
  constructor
  · rintro ⟨fuel, s1, h⟩
    exact ⟨fuel, s1, (Set_circular_iff _ _ _ _ _ _ _ hc).1 h⟩
  · rintro ⟨fuel, s1, h⟩
    exact ⟨fuel, s1, (Set_circular_iff _ _ _ _ _ _ _ hc).2 h⟩

/-- Witness for C2: after `Set(A1, "=B1")` succeeds, `Set(B1, "=A1")` is
rejected, `A1` keeps the text `=B1` and `B1` keeps its empty content; the
candidate set `{A1}` closes a cycle through `B1`. -/
theorem IsCircular_decides_reachability_witness :
    Set sampleParseFormula 2 [] A1 "=B1" = some (SetResult.ok sheetA1ReadsB1) ∧
    Set sampleParseFormula 2 sheetA1ReadsB1 B1 "=A1"
      = some (SetResult.CircularDependencyException sheetA1ReadsB1) ∧
    (Sheet.cell sheetA1ReadsB1 A1).GetText = "=B1" ∧
    (Sheet.cell sheetA1ReadsB1 B1).GetText = "" ∧
    Set.candidate sampleParseFormula "=A1" = some (Impl.FormulaImpl formulaA1) ∧
    ((∃ fuel s1, Set sampleParseFormula fuel sheetA1ReadsB1 B1 "=A1"
        = some (SetResult.CircularDependencyException s1)) ↔
      ClosesCycle (Sheet.out sheetA1ReadsB1) B1
        (Cells.ofVector (Impl.FormulaImpl formulaA1).GetReferencedCells)) :=
  ⟨by decide, by decide, by decide, by decide, by decide,
   (IsCircular_decides_reachability sheetA1ReadsB1 B1 (Impl.FormulaImpl formulaA1)).2.2
     sampleParseFormula "=A1" (by decide)⟩

/-- Claim C8. For a text that begins with the formula marker, is longer than
one character and whose remainder fails to parse, `Cell::Set` raises
`FormulaException` and leaves the whole store exactly as it was: no cell is
modified and none is materialized. -/
theorem Set_syntax_error_atomic (ParseFormula : String → Option FormulaInterface)
    (fuel : Nat) (s : Sheet) (X : Position) (text : String)
    (hfront : text.data.head? = some FORMULA_SIGN) (hsize : 1 < text.data.length)
    (hparse : ParseFormula (String.mk text.data.tail) = none) :
    Set ParseFormula fuel s X text = some (SetResult.FormulaException s) := by
  have hne : text.data ≠ [] := by
    intro h
    rw [h] at hsize
    exact absurd hsize (by decide)
  have hcand : Set.candidate ParseFormula text = none := by
    unfold Set.candidate
    rw [if_neg hne, if_pos ⟨hfront, hsize⟩, hparse]
  unfold Set
  rw [hcand]

/-- Witness for C8: `Set("=A1+")` on the cell `A1` of a sheet in which `A1`
reads `B1`. -/
theorem Set_syntax_error_atomic_witness :
    ("=A1+" : String).data.head? = some FORMULA_SIGN ∧ 1 < ("=A1+" : String).data.length ∧
    sampleParseFormula (String.mk ("=A1+" : String).data.tail) = none ∧
    Set sampleParseFormula 0 sheetA1ReadsB1 A1 "=A1+"
      = some (SetResult.FormulaException sheetA1ReadsB1) :=
  ⟨by decide, by decide, by decide,
   Set_syntax_error_atomic sampleParseFormula 0 sheetA1ReadsB1 A1 "=A1+"
     (by decide) (by decide) (by decide)⟩

/-! ## Clear -/

/-- Claim C10. `Cell::Clear` on a stored cell `X` replaces its content variant
by Empty (its text becomes the empty string and its referenced cells the empty
list) and changes nothing else: the outgoing set, incoming set and cache of `X`
and every other position of the store are as before; the call always returns
normally. -/
theorem Clear_frame (s : Sheet) (X : Position) (c : Cell) (h : s.GetCellByIndex X = some c) :
    (Clear s X).GetCellByIndex X = some { c with impl_ := Impl.EmptyImpl } ∧
    ((Clear s X).cell X).GetText = "" ∧
    ((Clear s X).cell X).GetReferencedCells = [] ∧
    ((Clear s X).cell X).outgoing_references_ = c.outgoing_references_ ∧
    ((Clear s X).cell X).incoming_references_ = c.incoming_references_ ∧
    ((Clear s X).cell X).cache_ = c.cache_ ∧
    (∀ p, p ≠ X → (Clear s X).GetCellByIndex p = s.GetCellByIndex p) ∧
    ∀ (ParseFormula : String → Option FormulaInterface) (fuel : Nat),
      Call.exec ParseFormula fuel s (Call.Clear X) = some (SetResult.ok (Clear s X)) := by
  have hcell : s.cell X = c := by simp [Sheet.cell, h]
  refine ⟨?_, ?_, ?_, ?_, ?_, ?_, ?_, ?_⟩
  · simp [Clear, get_put_same, hcell]
  · simp [Clear, cell_put_same, Cell.GetText, Impl.GetText]
  · simp [Clear, cell_put_same, Cell.GetReferencedCells, Impl.GetReferencedCells]
  · simp [Clear, cell_put_same, hcell]
  · simp [Clear, cell_put_same, hcell]
  · simp [Clear, cell_put_same, hcell]
  · intro p hp
    exact get_put_other s X p _ hp
  · intro _ _
    rfl

/-- Witness for C10: `Clear` on the cell `A1` that reads `B1`. -/
theorem Clear_frame_witness :
    Sheet.GetCellByIndex sheetA1ReadsB1 A1
      = some { impl_ := Impl.FormulaImpl formulaB1, incoming_references_ := [],
               outgoing_references_ := [B1], cache_ := none } ∧
    Sheet.GetCellByIndex (Clear sheetA1ReadsB1 A1) A1
      = some { impl_ := Impl.EmptyImpl, incoming_references_ := [],
               outgoing_references_ := [B1], cache_ := none } :=
  ⟨by decide,
   (Clear_frame sheetA1ReadsB1 A1
     { impl_ := Impl.FormulaImpl formulaB1, incoming_references_ := [],
       outgoing_references_ := [B1], cache_ := none } (by decide)).1⟩

/-! ## The incoming sets and the invalidation walk -/

theorem walk_selfLoop_diverges (s : Sheet) (p : Position) (c : Cell)
    (hv : p.IsValid = true) (hg : s.GetCellByIndex p = some c) (hc : c.cache_ = none)
    (hi : c.incoming_references_ = [p]) :
    ∀ fuel, InvalidAllDependentCaches fuel s [p] = none := by
  have hcell : s.cell p = c := by simp [Sheet.cell, hg]
  have hmk : MakeCell s p = s := by simp [MakeCell, hg]
  have hinv : InvalidCache s p = s := by
    unfold InvalidCache
    rw [hcell]
    have : ({ c with cache_ := none } : Cell) = c := by
      cases c
      simp only [Cell.mk.injEq, true_and] at hc ⊢
      exact hc.symm
    rw [this]
    exact put_get_self s p c hg
  intro fuel
  induction fuel with
  | zero => rfl
  | succ n ih =>
    unfold InvalidAllDependentCaches InvalidAllDependentCaches.loop
    simp only [hv, Bool.not_true, Bool.false_eq_true, if_false, hmk, hinv, hcell, hi, ih]

/-- Claim C4 (the code violates it). After the single successful call
`Set(A1, "=B1")` on the sheet without cells, `B1` is in the outgoing set of `A1`
but `A1` is not in the incoming set of `B1`, which instead holds `B1` itself:
`Cell::UpdateReferences` inserts the neighbour's own position `pos` where
`pos_` is meant. -/
theorem edge_symmetry_broken_by_Set :
    runOk sampleParseFormula 2 [] [Call.Set A1 "=B1"] = some sheetA1ReadsB1 ∧
    B1 ∈ Sheet.out sheetA1ReadsB1 A1 ∧
    A1 ∉ Sheet.inc sheetA1ReadsB1 B1 ∧
    Sheet.inc sheetA1ReadsB1 B1 = [B1] ∧
    B1 ∉ Sheet.out sheetA1ReadsB1 B1 := by
  decide

/-- Claim C5 (the code violates it). After the successful calls
`callsTwoReaders`, the cell `C1` reads `B1` and holds the memoized value 5;
`Set(B1, "7")` then succeeds and `C1`, which still has `B1` in its outgoing
set, keeps its memoized value. -/
theorem invalidation_incomplete :
    runOk sampleParseFormula 2 [] callsTwoReaders = some sheetTwoReaders ∧
    Set sampleParseFormula 2 sheetTwoReaders B1 "7" = some (SetResult.ok sheetStale) ∧
    B1 ∈ Sheet.out sheetStale C1 ∧
    (Sheet.cell sheetStale C1).cache_ = some (Value.number 5) := by
  decide

/-- Claim C6 (the code violates it). After `Set(A1, "5")` and
`Set(B1, "=A1+1")` the incoming set of `A1` is `{A1}`, and the call
`Set(A1, "10")` does not return for any recursion depth: the invalidation walk
started on `{A1}` re-enters itself on the cell `A1` for ever. -/
theorem invalidation_walk_diverges :
    runOk sampleParseFormula 2 [] [Call.Set A1 "5", Call.Set B1 "=A1+1"]
      = some sheetB1ReadsA1 ∧
    Sheet.inc sheetB1ReadsA1 A1 = [A1] ∧
    (∀ fuel, InvalidAllDependentCaches fuel sheetB1ReadsA1Ten [A1] = none) ∧
    ∀ fuel, Set sampleParseFormula fuel sheetB1ReadsA1 A1 "10" = none := by
  have hw := walk_selfLoop_diverges sheetB1ReadsA1Ten A1
    { impl_ := Impl.TextImpl "10", incoming_references_ := [A1],
      outgoing_references_ := [], cache_ := none } (by decide) (by decide) rfl rfl
  refine ⟨by decide, by decide, hw, ?_⟩
  intro fuel
  cases fuel with
  | zero => rfl
  | succ n =>
    show (match InvalidAllDependentCaches (n + 1) sheetB1ReadsA1Ten [A1] with
      | none => none
      | some s5 => some (SetResult.ok s5)) = none
    rw [hw]

/-- Claim C7 (the code violates it). In the spec's scenario (`A1 = "5"`,
`B1 = "=A1+1"`, `C1 = "=B1*2"`, `GetValue(C1) = 12`) the call `Set(A1, "10")`
does not return for any recursion depth; and after the successful calls
`callsTwoReaders` and `Set(B1, "7")` the cell `C1` holds the memoized value 5
and `GetValue(C1)` returns it, although its content `=B1` now computes 7. -/
theorem cache_stale_after_edit :
    runOk sampleParseFormula 3 []
        [Call.Set A1 "5", Call.Set B1 "=A1+1", Call.Set C1 "=B1*2", Call.GetValue C1]
      = some sheetChain ∧
    (Sheet.cell sheetChain C1).cache_ = some (Value.number 12) ∧
    (∀ fuel, Set sampleParseFormula fuel sheetChain A1 "10" = none) ∧
    runOk sampleParseFormula 2 [] (callsTwoReaders ++ [Call.Set B1 "7"]) = some sheetStale ∧
    (GetValue 2 sheetStale C1).map Prod.fst = some (Value.number 5) ∧
    (Impl.GetValue (fun s p => GetValue 2 s p) (Sheet.cell sheetStale C1).impl_ sheetStale).map
      Prod.fst = some (Value.number 7) := by
  have hw := walk_selfLoop_diverges sheetChainTen A1
    { impl_ := Impl.TextImpl "10", incoming_references_ := [A1],
      outgoing_references_ := [], cache_ := none } (by decide) (by decide) rfl rfl
  refine ⟨by decide, by decide, ?_, by decide, by decide, by decide⟩
  intro fuel
  cases fuel with
  | zero => rfl
  | succ n =>
    show (match InvalidAllDependentCaches (n + 1) sheetChainTen [A1] with
      | none => none
      | some s5 => some (SetResult.ok s5)) = none
    rw [hw]

/-- Claim C9 (the code violates it). After `Set(A1, "=B1")` and `Clear(A1)` the
stored outgoing set of `A1` is still `{B1}`, while the current content variant
of `A1` is Empty and reports no referenced cell. -/
theorem outgoing_stale_after_Clear :
    runOk sampleParseFormula 2 [] [Call.Set A1 "=B1", Call.Clear A1] = some sheetCleared ∧
    Sheet.out sheetCleared A1 = [B1] ∧
    (Sheet.cell sheetCleared A1).impl_ = Impl.EmptyImpl ∧
    (Sheet.cell sheetCleared A1).GetReferencedCells = [] := by
  decide

/-! ## How a committed edit changes the outgoing sets -/

theorem out_put (s : Sheet) (p v : Position) (c : Cell) :
    (s.put p c).out v = if v = p then c.outgoing_references_ else s.out v := by
  unfold Sheet.out
  rw [cell_put]
  by_cases h : v = p <;> simp [h]

theorem impl_put (s : Sheet) (p v : Position) (c : Cell) :
    ((s.put p c).cell v).impl_ = if v = p then c.impl_ else (s.cell v).impl_ := by
  rw [cell_put]
  by_cases h : v = p <;> simp [h]

theorem dropEdge_out (s : Sheet) (pos : Position) :
    (UpdateReferences.dropEdge s pos).out = s.out := by
  funext v
  unfold UpdateReferences.dropEdge
  by_cases hv : pos.IsValid = true
  · simp only [hv, Bool.not_true, Bool.false_eq_true, if_false, out_put]
    by_cases h : v = pos
    · subst h
      simp [Sheet.out, MakeCell_cell]
    · simp [h, Sheet.out, MakeCell_cell]
  · simp [hv]

theorem dropEdge_impl (s : Sheet) (pos v : Position) :
    ((UpdateReferences.dropEdge s pos).cell v).impl_ = (s.cell v).impl_ := by
  unfold UpdateReferences.dropEdge
  by_cases hv : pos.IsValid = true
  · simp only [hv, Bool.not_true, Bool.false_eq_true, if_false, impl_put]
    by_cases h : v = pos
    · subst h
      simp [MakeCell_cell]
    · simp [h, MakeCell_cell]
  · simp [hv]

theorem foldl_dropEdge (l : List Position) :
    ∀ s : Sheet, (l.foldl UpdateReferences.dropEdge s).out = s.out ∧
      ∀ v, ((l.foldl UpdateReferences.dropEdge s).cell v).impl_ = (s.cell v).impl_ := by
  induction l with
  | nil => intro s; exact ⟨rfl, fun _ => rfl⟩
  | cons a tl ih =>
    intro s
    simp only [List.foldl_cons]
    obtain ⟨h1, h2⟩ := ih (UpdateReferences.dropEdge s a)
    exact ⟨h1.trans (dropEdge_out s a), fun v => (h2 v).trans (dropEdge_impl s a v)⟩

theorem addEdge_out (X : Position) (s : Sheet) (pos v : Position) :
    (UpdateReferences.addEdge X s pos).out v =
      if pos.IsValid = true ∧ v = X then Cells.insert (s.out X) pos else s.out v := by
  unfold UpdateReferences.addEdge
  by_cases hv : pos.IsValid = true
  · simp only [hv, Bool.not_true, Bool.false_eq_true, if_false, out_put, true_and]
    have hmk : ∀ q, (MakeCell (s.put X { s.cell X with
        outgoing_references_ := Cells.insert (s.cell X).outgoing_references_ pos }) pos).cell q
        = (s.put X { s.cell X with
        outgoing_references_ := Cells.insert (s.cell X).outgoing_references_ pos }).cell q :=
      fun q => MakeCell_cell _ _ _
    by_cases h : v = pos
    · subst h
      simp only [if_true, Sheet.out, hmk, cell_put]
      by_cases hX : v = X <;> simp [hX]
    · simp only [h, if_false, Sheet.out, hmk, cell_put]
      by_cases hX : v = X <;> simp [hX]
  · simp [hv]

theorem foldl_addEdge_out (X : Position) (l : List Position) :
    ∀ s : Sheet, (∀ v, v ≠ X → (l.foldl (UpdateReferences.addEdge X) s).out v = s.out v) ∧
      ∀ w, w ∈ (l.foldl (UpdateReferences.addEdge X) s).out X ↔
        w ∈ s.out X ∨ (w ∈ l ∧ w.IsValid = true) := by
  induction l with
  | nil => intro s; simp
  | cons a tl ih =>
    intro s
    simp only [List.foldl_cons]
    obtain ⟨h1, h2⟩ := ih (UpdateReferences.addEdge X s a)
    refine ⟨?_, ?_⟩
    · intro v hv
      rw [h1 v hv, addEdge_out]
      simp [hv]
    · intro w
      rw [h2 w, addEdge_out]
      by_cases ha : a.IsValid = true
      · simp only [ha, true_and, if_true, mem_insert, List.mem_cons]
        constructor
        · rintro ((rfl | h) | ⟨h, hw⟩)
          · exact Or.inr ⟨Or.inl rfl, ha⟩
          · exact Or.inl h
          · exact Or.inr ⟨Or.inr h, hw⟩
        · rintro (h | ⟨rfl | h, hw⟩)
          · exact Or.inl (Or.inr h)
          · exact Or.inl (Or.inl rfl)
          · exact Or.inr ⟨h, hw⟩
      · simp only [ha, false_and, if_false, List.mem_cons]
        constructor
        · rintro (h | ⟨h, hw⟩)
          · exact Or.inl h
          · exact Or.inr ⟨Or.inr h, hw⟩
        · rintro (h | ⟨rfl | h, hw⟩)
          · exact Or.inl h
          · exact absurd hw ha
          · exact Or.inr ⟨h, hw⟩

theorem UpdateReferences_out (s : Sheet) (X : Position) :
    (∀ v, v ≠ X → (UpdateReferences s X).out v = s.out v) ∧
    ∀ w, w ∈ (UpdateReferences s X).out X ↔
      w ∈ (s.cell X).GetReferencedCells ∧ w.IsValid = true := by
  unfold UpdateReferences
  obtain ⟨hd1, hd2⟩ := foldl_dropEdge (s.cell X).outgoing_references_ s
  generalize (s.cell X).outgoing_references_.foldl UpdateReferences.dropEdge s = s1 at hd1 hd2
  simp only []
  obtain ⟨ha1, ha2⟩ := foldl_addEdge_out X
    ((s1.put X { s1.cell X with outgoing_references_ := [] }).cell X).GetReferencedCells
    (s1.put X { s1.cell X with outgoing_references_ := [] })
  have hrefs : ((s1.put X { s1.cell X with outgoing_references_ := [] }).cell X).GetReferencedCells
      = (s.cell X).GetReferencedCells := by
    simp [Cell.GetReferencedCells, cell_put_same, hd2 X]
  refine ⟨?_, ?_⟩
  · intro v hv
    rw [ha1 v hv, out_put]
    simp [hv, hd1]
  · intro w
    rw [ha2 w, out_put, hrefs]
    simp

theorem InvalidCache_out (s : Sheet) (p : Position) : (InvalidCache s p).out = s.out := by
  funext v
  unfold InvalidCache
  rw [out_put]
  by_cases h : v = p
  · subst h; simp [Sheet.out]
  · simp [h]

theorem walk_out : ∀ (fuel : Nat) (s s1 : Sheet) (inc : Cells),
    InvalidAllDependentCaches fuel s inc = some s1 → s1.out = s.out := by
  intro fuel
  induction fuel with
  | zero => intro s s1 inc h; simp [InvalidAllDependentCaches] at h
  | succ n ih =>
    have hloop : ∀ (rest : List Position) (s s1 : Sheet),
        InvalidAllDependentCaches.loop (fun s2 inc => InvalidAllDependentCaches n s2 inc) rest s
          = some s1 → s1.out = s.out := by
      intro rest
      induction rest with
      | nil =>
        intro s s1 h
        simp only [InvalidAllDependentCaches.loop, Option.some.injEq] at h
        rw [h]
      | cons pos rest ihr =>
        intro s s1 h
        unfold InvalidAllDependentCaches.loop at h
        by_cases hv : pos.IsValid = true
        · simp only [hv, Bool.not_true, Bool.false_eq_true, if_false] at h
          cases hr : InvalidAllDependentCaches n (InvalidCache (MakeCell s pos) pos)
              ((InvalidCache (MakeCell s pos) pos).cell pos).incoming_references_ with
          | none => simp [hr] at h
          | some s3 =>
            simp only [hr] at h
            rw [ihr s3 s1 h, ih _ _ _ hr, InvalidCache_out]
            exact Grown.out (MakeCell_grown s pos)
        · simp only [hv, Bool.not_false, if_true] at h
          exact ihr s s1 h
    intro s s1 inc h
    unfold InvalidAllDependentCaches at h
    exact hloop inc s s1 h

theorem addEdge_impl (X : Position) (s : Sheet) (pos v : Position) :
    ((UpdateReferences.addEdge X s pos).cell v).impl_ = (s.cell v).impl_ := by
  unfold UpdateReferences.addEdge
  by_cases hv : pos.IsValid = true
  · simp only [hv, Bool.not_true, Bool.false_eq_true, if_false, impl_put, MakeCell_cell]
    by_cases hX : v = X
    · subst hX
      by_cases h : v = pos
      · subst h; simp
      · simp [h]
    · by_cases h : v = pos
      · subst h; simp [hX]
      · simp [h, hX]
  · simp [hv]

theorem foldl_addEdge_impl (X : Position) (l : List Position) :
    ∀ (s : Sheet) (v : Position),
      ((l.foldl (UpdateReferences.addEdge X) s).cell v).impl_ = (s.cell v).impl_ := by
  induction l with
  | nil => intro s v; rfl
  | cons a tl ih =>
    intro s v
    simp only [List.foldl_cons]
    rw [ih, addEdge_impl]

theorem UpdateReferences_impl (s : Sheet) (X v : Position) :
    ((UpdateReferences s X).cell v).impl_ = (s.cell v).impl_ := by
  unfold UpdateReferences
  simp only []
  rw [foldl_addEdge_impl, impl_put]
  by_cases h : v = X
  · subst h
    simp [(foldl_dropEdge _ s).2 v]
  · simp [h, (foldl_dropEdge _ s).2 v]

theorem InvalidCache_impl (s : Sheet) (p v : Position) :
    ((InvalidCache s p).cell v).impl_ = (s.cell v).impl_ := by
  unfold InvalidCache
  rw [impl_put]
  by_cases h : v = p
  · subst h; simp
  · simp [h]

theorem walk_impl : ∀ (fuel : Nat) (s s1 : Sheet) (inc : Cells),
    InvalidAllDependentCaches fuel s inc = some s1 →
    ∀ v, (s1.cell v).impl_ = (s.cell v).impl_ := by
  intro fuel
  induction fuel with
  | zero => intro s s1 inc h; simp [InvalidAllDependentCaches] at h
  | succ n ih =>
    have hloop : ∀ (rest : List Position) (s s1 : Sheet),
        InvalidAllDependentCaches.loop (fun s2 inc => InvalidAllDependentCaches n s2 inc) rest s
          = some s1 → ∀ v, (s1.cell v).impl_ = (s.cell v).impl_ := by
      intro rest
      induction rest with
      | nil =>
        intro s s1 h v
        simp only [InvalidAllDependentCaches.loop, Option.some.injEq] at h
        rw [h]
      | cons pos rest ihr =>
        intro s s1 h v
        unfold InvalidAllDependentCaches.loop at h
        by_cases hv : pos.IsValid = true
        · simp only [hv, Bool.not_true, Bool.false_eq_true, if_false] at h
          cases hr : InvalidAllDependentCaches n (InvalidCache (MakeCell s pos) pos)
              ((InvalidCache (MakeCell s pos) pos).cell pos).incoming_references_ with
          | none => simp [hr] at h
          | some s3 =>
            simp only [hr] at h
            rw [ihr s3 s1 h v, ih _ _ _ hr v, InvalidCache_impl, MakeCell_cell]
        · simp only [hv, Bool.not_false, if_true] at h
          exact ihr s s1 h v
    intro s s1 inc h
    unfold InvalidAllDependentCaches at h
    exact hloop inc s s1 h

theorem Set_ok_out {ParseFormula : String → Option FormulaInterface} {fuel : Nat}
    {s s1 : Sheet} {X : Position} {text : String}
    (h : Set ParseFormula fuel s X text = some (SetResult.ok s1)) :
    ∃ impl : Impl, Set.candidate ParseFormula text = some impl ∧
      ¬ ClosesCycle s.out X (Cells.ofVector impl.GetReferencedCells) ∧
      (∀ v, v ≠ X → s1.out v = s.out v) ∧
      (∀ w, w ∈ s1.out X ↔ w ∈ impl.GetReferencedCells ∧ w.IsValid = true) ∧
      (s1.cell X).impl_ = impl ∧ ∀ v, v ≠ X → (s1.cell v).impl_ = (s.cell v).impl_ := by
  unfold Set at h
  cases hc : Set.candidate ParseFormula text with
  | none => simp [hc] at h
  | some impl =>
    simp only [hc] at h
    cases hr : IsCircular fuel s X impl with
    | none => simp [hr] at h
    | some r =>
      obtain ⟨b, s2⟩ := r
      cases b with
      | true => simp [hr] at h
      | false =>
        simp only [hr] at h
        have hg : s2.out = s.out := Grown.out (IsCircular_grown hr)
        refine ⟨impl, rfl, (IsCircular_false_iff s X impl).1 ⟨fuel, s2, hr⟩, ?_⟩
        cases hw : InvalidAllDependentCaches fuel
            (InvalidCache (UpdateReferences (s2.put X { s2.cell X with impl_ := impl }) X) X)
            ((InvalidCache (UpdateReferences (s2.put X { s2.cell X with impl_ := impl }) X)
              X).cell X).incoming_references_ with
        | none => simp [hw] at h
        | some s5 =>
          simp only [hw, Option.some.injEq, SetResult.ok.injEq] at h
          subst h
          have h5 := walk_out _ _ _ _ hw
          rw [InvalidCache_out] at h5
          obtain ⟨hu1, hu2⟩ := UpdateReferences_out (s2.put X { s2.cell X with impl_ := impl }) X
          have hput : (s2.put X { s2.cell X with impl_ := impl }).out = s.out := by
            funext v
            rw [out_put, ← hg]
            by_cases hv : v = X
            · subst hv; simp [Sheet.out]
            · simp [hv]
          have himpl : ∀ v, (s5.cell v).impl_
              = ((s2.put X { s2.cell X with impl_ := impl }).cell v).impl_ := by
            intro v
            rw [walk_impl _ _ _ _ hw v, InvalidCache_impl, UpdateReferences_impl]
          refine ⟨?_, ?_, ?_, ?_⟩
          · intro v hv
            rw [h5, hu1 v hv, hput]
          · intro w
            rw [h5, hu2 w]
            simp [Cell.GetReferencedCells, cell_put_same]
          · rw [himpl X, cell_put_same]
          · intro v hv
            rw [himpl v, cell_put_other _ _ _ _ hv, Grown.cell (IsCircular_grown hr)]

theorem Set_raise_grown {ParseFormula : String → Option FormulaInterface} {fuel : Nat}
    {s : Sheet} {X : Position} {text : String} {r : SetResult}
    (h : Set ParseFormula fuel s X text = some r) (hr : ∀ s1, r ≠ SetResult.ok s1) :
    Sheet.Grown s r.sheet := by
  cases hc : Set.candidate ParseFormula text with
  | none =>
    simp only [Set, hc, Option.some.injEq] at h
    subst h
    exact Grown.refl s
  | some impl =>
    cases r with
    | ok s1 => exact absurd rfl (hr s1)
    | FormulaException s1 =>
      unfold Set at h
      simp only [hc] at h
      cases hi : IsCircular fuel s X impl with
      | none => simp [hi] at h
      | some q =>
        obtain ⟨b, s2⟩ := q
        cases b with
        | true => simp [hi] at h
        | false =>
          simp only [hi] at h
          cases hw : InvalidAllDependentCaches fuel
              (InvalidCache (UpdateReferences (s2.put X { s2.cell X with impl_ := impl }) X) X)
              ((InvalidCache (UpdateReferences (s2.put X { s2.cell X with impl_ := impl }) X)
                X).cell X).incoming_references_ with
          | none => simp [hw] at h
          | some s5 => simp [hw] at h
    | CircularDependencyException s1 =>
      exact IsCircular_grown ((Set_circular_iff _ _ _ _ _ _ _ hc).1 h)

/-! ## Acyclicity of the dependency graph -/

theorem acyclic_update (g g1 : Position → Cells) (X : Position) (R : Cells)
    (hvalid : ∀ v, ∀ w ∈ g v, w.IsValid = true)
    (hacyc : ∀ v, ¬ Relation.TransGen (fun a b => b ∈ g a) v v)
    (hno : ¬ ClosesCycle g X R)
    (hother : ∀ v, v ≠ X → g1 v = g v)
    (hX : ∀ w, w ∈ g1 X → w ∈ R ∧ w.IsValid = true) :
    ∀ v, ¬ Relation.TransGen (fun a b => b ∈ g1 a) v v := by
  have claim : ∀ a b, Relation.TransGen (fun a b => b ∈ g1 a) a b → a ≠ X →
      Relation.TransGen (fun a b => a ≠ X ∧ b ∈ g a) a b ∨
      (Relation.TransGen (fun a b => a ≠ X ∧ b ∈ g a) a X ∧
        Relation.TransGen (fun a b => b ∈ g1 a) X b) := by
    intro a b hab
    refine Relation.TransGen.head_induction_on
      (P := fun a _ => a ≠ X →
        Relation.TransGen (fun a b => a ≠ X ∧ b ∈ g a) a b ∨
        (Relation.TransGen (fun a b => a ≠ X ∧ b ∈ g a) a X ∧
          Relation.TransGen (fun a b => b ∈ g1 a) X b)) hab ?_ ?_
    · intro a hedge ha
      have : b ∈ g a := by rw [← hother a ha]; exact hedge
      exact Or.inl (Relation.TransGen.single ⟨ha, this⟩)
    · intro a c hedge hrest ihc ha
      have hac : c ∈ g a := by rw [← hother a ha]; exact hedge
      by_cases hcX : c = X
      · subst hcX
        exact Or.inr ⟨Relation.TransGen.single ⟨ha, hac⟩, hrest⟩
      · rcases ihc hcX with h1 | ⟨h1, h2⟩
        · exact Or.inl (Relation.TransGen.head ⟨ha, hac⟩ h1)
        · exact Or.inr ⟨Relation.TransGen.head ⟨ha, hac⟩ h1, h2⟩
  have toOld : ∀ a b, Relation.TransGen (fun a b => a ≠ X ∧ b ∈ g a) a b →
      Relation.TransGen (fun a b => b ∈ g a) a b :=
    fun a b h => Relation.TransGen.mono (fun _ _ hh => hh.2) h
  have toNew : ∀ a b, Relation.TransGen (fun a b => a ≠ X ∧ b ∈ g a) a b →
      Relation.TransGen (fun a b => b ∈ g1 a) a b :=
    fun a b h => Relation.TransGen.mono
      (fun u w hh => by show w ∈ g1 u; rw [hother u hh.1]; exact hh.2) h
  have toStep : ∀ a b, Relation.TransGen (fun a b => a ≠ X ∧ b ∈ g a) a b →
      a.IsValid = true → Relation.TransGen (TraversalStep g) a b := by
    intro a b hab
    refine Relation.TransGen.head_induction_on
      (P := fun a _ => a.IsValid = true → Relation.TransGen (TraversalStep g) a b) hab ?_ ?_
    · intro a hedge ha
      exact Relation.TransGen.single ⟨ha, hedge.2⟩
    · intro a c hedge _ ihc ha
      exact Relation.TransGen.head ⟨ha, hedge.2⟩ (ihc (hvalid a c hedge.2))
  have noX : ¬ Relation.TransGen (fun a b => b ∈ g1 a) X X := by
    intro hXX
    obtain ⟨r, hXr, hrX⟩ := Relation.TransGen.head'_iff.1 hXX
    obtain ⟨hrR, hrv⟩ := hX r hXr
    by_cases hr : r = X
    · subst hr
      exact hno (Or.inl hrR)
    · rcases Relation.reflTransGen_iff_eq_or_transGen.1 hrX with h | h
      · exact hr h.symm
      · have hpath : Relation.TransGen (fun a b => a ≠ X ∧ b ∈ g a) r X := by
          rcases claim r X h hr with h1 | ⟨h1, _⟩
          · exact h1
          · exact h1
        exact hno (Or.inr ⟨r, hrR, hrv, toStep r X hpath hrv⟩)
  intro v hvv
  by_cases hv : v = X
  · subst hv
    exact noX hvv
  · rcases claim v v hvv hv with h1 | ⟨h1, h2⟩
    · exact hacyc v (toOld v v h1)
    · exact noX (Relation.TransGen.trans h2 (toNew v X h1))

theorem out_of_allEmpty {s : Sheet} (h : AllEmpty s) (v : Position) : s.out v = [] := by
  unfold Sheet.out Sheet.cell
  cases hg : s.GetCellByIndex v with
  | none => rfl
  | some c => exact (h v c hg).2.2

theorem reachable_by_Set_invariant {ParseFormula : String → Option FormulaInterface}
    {s0 s : Sheet} (h0 : AllEmpty s0) (h : Reachable ParseFormula Call.isSet s0 s) :
    (∀ v, ∀ w ∈ s.out v, w.IsValid = true) ∧ Acyclic s := by
  induction h with
  | start =>
    refine ⟨?_, ?_⟩
    · intro v w hw
      rw [out_of_allEmpty h0 v] at hw
      exact absurd hw (List.not_mem_nil w)
    · intro v hv
      obtain ⟨w, hvw, _⟩ := Relation.TransGen.head'_iff.1 hv
      have hvw1 : w ∈ s0.out v := hvw
      rw [out_of_allEmpty h0 v] at hvw1
      exact absurd hvw1 (List.not_mem_nil w)
  | @step s c fuel r _ hallowed hexec ih =>
    obtain ⟨hvalid, hacyc⟩ := ih
    cases c with
    | Clear pos => simp [Call.isSet] at hallowed
    | GetValue pos => simp [Call.isSet] at hallowed
    | Set X text =>
      have hset : Set ParseFormula fuel s X text = some r := hexec
      by_cases hok : ∃ s1, r = SetResult.ok s1
      · obtain ⟨s1, rfl⟩ := hok
        obtain ⟨impl, _, hno, hother, hX, _, _⟩ := Set_ok_out hset
        refine ⟨?_, ?_⟩
        · intro v w hw
          by_cases hv : v = X
          · subst hv
            exact ((hX w).1 hw).2
          · exact hvalid v w (by rw [← hother v hv]; exact hw)
        · exact acyclic_update s.out (Sheet.out s1) X (Cells.ofVector impl.GetReferencedCells)
            hvalid hacyc hno hother
            (fun w hw => ⟨(mem_ofVector _ _).2 ((hX w).1 hw).1, ((hX w).1 hw).2⟩)
      · have hout : r.sheet.out = s.out :=
          Grown.out (Set_raise_grown hset (fun s1 hr => hok ⟨s1, hr⟩))
        refine ⟨?_, ?_⟩
        · intro v w hw
          rw [hout] at hw
          exact hvalid v w hw
        · intro v hv
          have : OutEdge r.sheet = OutEdge s := by
            funext a b
            simp [OutEdge, hout]
          rw [this] at hv
          exact hacyc v hv

theorem reachable_by_Set_tracks_content {ParseFormula : String → Option FormulaInterface}
    {s0 s : Sheet} (h0 : AllEmpty s0) (h : Reachable ParseFormula Call.isSet s0 s) :
    ∀ v w, w ∈ s.out v ↔ w ∈ (s.cell v).GetReferencedCells ∧ w.IsValid = true := by
  induction h with
  | start =>
    intro v w
    rw [out_of_allEmpty h0 v]
    have : (s0.cell v).GetReferencedCells = [] := by
      unfold Sheet.cell
      cases hg : s0.GetCellByIndex v with
      | none => rfl
      | some c => simp [Cell.GetReferencedCells, (h0 v c hg).1, Impl.GetReferencedCells]
    simp [this]
  | @step s c fuel r _ hallowed hexec ih =>
    cases c with
    | Clear pos => simp [Call.isSet] at hallowed
    | GetValue pos => simp [Call.isSet] at hallowed
    | Set X text =>
      have hset : Set ParseFormula fuel s X text = some r := hexec
      by_cases hok : ∃ s1, r = SetResult.ok s1
      · obtain ⟨s1, rfl⟩ := hok
        obtain ⟨impl, _, _, hother, hX, hi1, hi2⟩ := Set_ok_out hset
        intro v w
        by_cases hv : v = X
        · subst hv
          show w ∈ Sheet.out s1 v ↔ _
          rw [hX w]
          simp only [SetResult.sheet, Cell.GetReferencedCells, hi1]
        · show w ∈ Sheet.out s1 v ↔ _
          rw [hother v hv, ih v w]
          simp only [SetResult.sheet, Cell.GetReferencedCells, hi2 v hv]
      · have hg := Set_raise_grown hset (fun s1 hr => hok ⟨s1, hr⟩)
        intro v w
        rw [Grown.out hg, Grown.cell hg v]
        exact ih v w

/-- Claim C3. Starting from a sheet in which every cell is Empty with empty
edge sets, after every finite sequence of `Cell::Set` calls on arbitrary cells,
each of which returns normally or is rejected by an exception, the graph of
stored outgoing edges has no directed cycle. -/
theorem acyclic_after_Set_calls (ParseFormula : String → Option FormulaInterface)
    (s0 s : Sheet) (h0 : AllEmpty s0) (h : Reachable ParseFormula Call.isSet s0 s) :
    Acyclic s :=
  (reachable_by_Set_invariant h0 h).2

/-- Witness for C3: the sheet reached from the sheet without cells by the
accepted `Set(A1, "=B1")` and the rejected `Set(B1, "=A1")`. -/
theorem acyclic_after_Set_calls_witness :
    AllEmpty [] ∧ Reachable sampleParseFormula Call.isSet [] sheetA1ReadsB1 ∧
      Acyclic sheetA1ReadsB1 :=
  have h0 : AllEmpty [] := fun p c h => by simp [Sheet.GetCellByIndex] at h
  have h1 : Reachable sampleParseFormula Call.isSet [] sheetA1ReadsB1 :=
    @Reachable.step sampleParseFormula Call.isSet [] [] (Call.Set A1 "=B1") 2
      (SetResult.ok sheetA1ReadsB1) Reachable.start rfl (by decide)
  have h2 : Reachable sampleParseFormula Call.isSet [] sheetA1ReadsB1 :=
    @Reachable.step sampleParseFormula Call.isSet [] sheetA1ReadsB1 (Call.Set B1 "=A1") 2
      (SetResult.CircularDependencyException sheetA1ReadsB1) h1 rfl (by decide)
  ⟨h0, h2, acyclic_after_Set_calls sampleParseFormula [] sheetA1ReadsB1 h0 h2⟩

/-! ## Memoization -/

/-- Claim C11. When `GetValue` on the cell at `X` returns the value `v`, the
cache of `X` holds `v` afterwards, and a second `GetValue` on `X` (no `Set` or
`Clear` in between) returns the same `v` from the cache, at recursion depth 1
already, and leaves the store exactly as it was before the second call. -/
theorem GetValue_memoizes (fuel : Nat) (s s1 : Sheet) (X : Position) (v : Value)
    (h : GetValue fuel s X = some (v, s1)) :
    (s1.cell X).cache_ = some v ∧ ∀ n, GetValue (n + 1) s1 X = some (v, s1) := by
  have hcache : (s1.cell X).cache_ = some v := by
    cases fuel with
    | zero => simp [GetValue] at h
    | succ n =>
      unfold GetValue at h
      cases hc : (s.cell X).cache_ with
      | some w =>
        simp only [hc, Option.some.injEq, Prod.mk.injEq] at h
        obtain ⟨hv, hs⟩ := h
        subst hv hs
        exact hc
      | none =>
        simp only [hc] at h
        cases hi : Impl.GetValue (fun s1 p => GetValue n s1 p) (s.cell X).impl_ s with
        | none => simp [hi] at h
        | some r =>
          obtain ⟨w, s2⟩ := r
          simp only [hi, Option.some.injEq, Prod.mk.injEq] at h
          obtain ⟨hv, hs⟩ := h
          subst hv hs
          simp [cell_put_same]
  refine ⟨hcache, ?_⟩
  intro n
  unfold GetValue
  simp only [hcache]

/-- Witness for C11: `GetValue(C1)` in the spec's scenario returns 12, and so
does the second call, which leaves the store unchanged. -/
theorem GetValue_memoizes_witness :
    GetValue 3 sheetChainFresh C1 = some (Value.number 12, sheetChain) ∧
    (Sheet.cell sheetChain C1).cache_ = some (Value.number 12) ∧
    GetValue 1 sheetChain C1 = some (Value.number 12, sheetChain) :=
  ⟨by decide,
   (GetValue_memoizes 3 sheetChainFresh sheetChain C1 (Value.number 12) (by decide)).1,
   (GetValue_memoizes 3 sheetChainFresh sheetChain C1 (Value.number 12) (by decide)).2 0⟩

/-! ## How a committed edit changes the incoming sets and the caches -/

theorem Set_ok_iff (ParseFormula : String → Option FormulaInterface) (fuel : Nat)
    (s s1 : Sheet) (X : Position) (text : String) :
    Set ParseFormula fuel s X text = some (SetResult.ok s1) ↔
      ∃ impl s2, Set.candidate ParseFormula text = some impl ∧
        IsCircular fuel s X impl = some (false, s2) ∧
        InvalidAllDependentCaches fuel (Set.committed s2 X impl)
          ((Set.committed s2 X impl).cell X).incoming_references_ = some s1 := by
  constructor
  · intro h
    unfold Set at h
    cases hc : Set.candidate ParseFormula text with
    | none => simp [hc] at h
    | some impl =>
      simp only [hc] at h
      cases hr : IsCircular fuel s X impl with
      | none => simp [hr] at h
      | some r =>
        obtain ⟨b, s2⟩ := r
        cases b with
        | true => simp [hr] at h
        | false =>
          simp only [hr] at h
          refine ⟨impl, s2, rfl, hr, ?_⟩
          unfold Set.committed
          cases hw : InvalidAllDependentCaches fuel
              (InvalidCache (UpdateReferences (s2.put X { s2.cell X with impl_ := impl }) X) X)
              ((InvalidCache (UpdateReferences (s2.put X { s2.cell X with impl_ := impl }) X)
                X).cell X).incoming_references_ with
          | none => simp [hw] at h
          | some s5 =>
            simp only [hw, Option.some.injEq, SetResult.ok.injEq] at h
            rw [h]
  · rintro ⟨impl, s2, hc, hcheck, hwalk⟩
    unfold Set.committed at hwalk
    unfold Set
    simp only [hc, hcheck, hwalk]

theorem inc_put (s : Sheet) (p v : Position) (c : Cell) :
    (s.put p c).inc v = if v = p then c.incoming_references_ else s.inc v := by
  unfold Sheet.inc
  rw [cell_put]
  by_cases h : v = p <;> simp [h]

theorem mem_erase (cs : Cells) (p q : Position) : q ∈ Cells.erase cs p ↔ q ∈ cs ∧ q ≠ p := by
  simp [Cells.erase]

theorem dropEdge_inc (s : Sheet) (pos v w : Position)
    (h : w ∈ (UpdateReferences.dropEdge s pos).inc v) : w ∈ s.inc v := by
  unfold UpdateReferences.dropEdge at h
  by_cases hv : pos.IsValid = true
  · simp only [hv, Bool.not_true, Bool.false_eq_true, if_false, inc_put, MakeCell_cell] at h
    by_cases hp : v = pos
    · subst hp
      simp only [if_true, mem_erase] at h
      exact h.1
    · simp only [hp, if_false] at h
      have : (MakeCell s pos).inc v = s.inc v := by simp [Sheet.inc, MakeCell_cell]
      rw [← this]
      exact h
  · simp only [hv, Bool.not_false, if_true] at h
    exact h

theorem foldl_dropEdge_inc (l : List Position) :
    ∀ (s : Sheet) (v w : Position),
      w ∈ (l.foldl UpdateReferences.dropEdge s).inc v → w ∈ s.inc v := by
  induction l with
  | nil => intro s v w h; exact h
  | cons a tl ih =>
    intro s v w h
    simp only [List.foldl_cons] at h
    exact dropEdge_inc s a v w (ih _ v w h)

theorem addEdge_inc (X : Position) (s : Sheet) (pos v w : Position)
    (h : w ∈ (UpdateReferences.addEdge X s pos).inc v) :
    w ∈ s.inc v ∨ (w = v ∧ w.IsValid = true) := by
  unfold UpdateReferences.addEdge at h
  by_cases hv : pos.IsValid = true
  · simp only [hv, Bool.not_true, Bool.false_eq_true, if_false, inc_put, MakeCell_cell] at h
    have hsame : ∀ q, ((s.put X { s.cell X with
        outgoing_references_ := Cells.insert (s.cell X).outgoing_references_ pos }).cell
        q).incoming_references_ = s.inc q := by
      intro q
      rw [cell_put]
      by_cases hq : q = X
      · subst hq; simp [Sheet.inc]
      · simp [hq, Sheet.inc]
    by_cases hp : v = pos
    · subst hp
      simp only [if_true, mem_insert, hsame] at h
      rcases h with rfl | h
      · exact Or.inr ⟨rfl, hv⟩
      · exact Or.inl h
    · simp only [hp, if_false] at h
      have h1 : w ∈ ((MakeCell (s.put X { s.cell X with
          outgoing_references_ := Cells.insert (s.cell X).outgoing_references_ pos })
          pos).cell v).incoming_references_ := h
      rw [MakeCell_cell, hsame] at h1
      exact Or.inl h1
  · simp only [hv, Bool.not_false, if_true] at h
    exact Or.inl h

theorem foldl_addEdge_inc (X : Position) (l : List Position) :
    ∀ (s : Sheet) (v w : Position),
      w ∈ (l.foldl (UpdateReferences.addEdge X) s).inc v →
      w ∈ s.inc v ∨ (w = v ∧ w.IsValid = true) := by
  induction l with
  | nil => intro s v w h; exact Or.inl h
  | cons a tl ih =>
    intro s v w h
    simp only [List.foldl_cons] at h
    rcases ih _ v w h with h1 | h1
    · exact addEdge_inc X s a v w h1
    · exact Or.inr h1

theorem UpdateReferences_inc (s : Sheet) (X v w : Position)
    (h : w ∈ (UpdateReferences s X).inc v) :
    w ∈ s.inc v ∨ (w = v ∧ w.IsValid = true) := by
  unfold UpdateReferences at h
  simp only [] at h
  rcases foldl_addEdge_inc X _ _ v w h with h1 | h1
  · left
    rw [inc_put] at h1
    apply foldl_dropEdge_inc (s.cell X).outgoing_references_ s v w
    by_cases hv : v = X
    · subst hv
      simpa [Sheet.inc] using h1
    · simpa [hv] using h1
  · exact Or.inr h1

theorem UpdateReferences_inc_of_no_refs (s : Sheet) (X v w : Position)
    (hrefs : (s.cell X).GetReferencedCells = [])
    (h : w ∈ (UpdateReferences s X).inc v) : w ∈ s.inc v := by
  unfold UpdateReferences at h
  simp only [] at h
  have himpl : ((((s.cell X).outgoing_references_.foldl UpdateReferences.dropEdge s).put X
      { ((s.cell X).outgoing_references_.foldl UpdateReferences.dropEdge s).cell X with
        outgoing_references_ := [] }).cell X).GetReferencedCells = [] := by
    simp only [Cell.GetReferencedCells, cell_put_same]
    rw [(foldl_dropEdge _ s).2 X]
    exact hrefs
  rw [himpl, List.foldl_nil, inc_put] at h
  apply foldl_dropEdge_inc (s.cell X).outgoing_references_ s v w
  by_cases hv : v = X
  · subst hv
    simpa [Sheet.inc] using h
  · simpa [hv] using h

theorem InvalidCache_cell (s : Sheet) (p v : Position) :
    (InvalidCache s p).cell v = if v = p then { s.cell v with cache_ := none } else s.cell v := by
  unfold InvalidCache
  rw [cell_put]
  by_cases h : v = p
  · subst h; simp
  · simp [h]

theorem walk_frame : ∀ (fuel : Nat) (s s1 : Sheet) (inc : Cells),
    InvalidAllDependentCaches fuel s inc = some s1 →
    ∀ v, s1.cell v = s.cell v ∨ s1.cell v = { s.cell v with cache_ := none } := by
  have compose : ∀ c c1 c2 : Cell, (c1 = c ∨ c1 = { c with cache_ := none }) →
      (c2 = c1 ∨ c2 = { c1 with cache_ := none }) →
      (c2 = c ∨ c2 = { c with cache_ := none }) := by
    intro c c1 c2 h1 h2
    rcases h1 with rfl | rfl
    · exact h2
    · rcases h2 with rfl | rfl
      · exact Or.inr rfl
      · exact Or.inr rfl
  intro fuel
  induction fuel with
  | zero => intro s s1 inc h; simp [InvalidAllDependentCaches] at h
  | succ n ih =>
    have hloop : ∀ (rest : List Position) (s s1 : Sheet),
        InvalidAllDependentCaches.loop (fun s2 inc => InvalidAllDependentCaches n s2 inc) rest s
          = some s1 →
        ∀ v, s1.cell v = s.cell v ∨ s1.cell v = { s.cell v with cache_ := none } := by
      intro rest
      induction rest with
      | nil =>
        intro s s1 h v
        simp only [InvalidAllDependentCaches.loop, Option.some.injEq] at h
        rw [h]
        exact Or.inl rfl
      | cons pos rest ihr =>
        intro s s1 h v
        unfold InvalidAllDependentCaches.loop at h
        by_cases hv : pos.IsValid = true
        · simp only [hv, Bool.not_true, Bool.false_eq_true, if_false] at h
          cases hr : InvalidAllDependentCaches n (InvalidCache (MakeCell s pos) pos)
              ((InvalidCache (MakeCell s pos) pos).cell pos).incoming_references_ with
          | none => simp [hr] at h
          | some s3 =>
            simp only [hr] at h
            have h1 : (InvalidCache (MakeCell s pos) pos).cell v = s.cell v ∨
                (InvalidCache (MakeCell s pos) pos).cell v
                  = { s.cell v with cache_ := none } := by
              rw [InvalidCache_cell, MakeCell_cell]
              by_cases hp : v = pos
              · simp [hp]
              · simp [hp]
            exact compose _ _ _ (compose _ _ _ h1 (ih _ _ _ hr v)) (ihr s3 s1 h v)
        · simp only [hv, Bool.not_false, if_true] at h
          exact ihr s s1 h v
    intro s s1 inc h
    unfold InvalidAllDependentCaches at h
    exact hloop inc s s1 h

theorem walk_inc {fuel : Nat} {s s1 : Sheet} {inc : Cells}
    (h : InvalidAllDependentCaches fuel s inc = some s1) : s1.inc = s.inc := by
  funext v
  rcases walk_frame fuel s s1 inc h v with h1 | h1 <;> simp [Sheet.inc, h1]

theorem committed_cache (s2 : Sheet) (X : Position) (impl : Impl) :
    ((Set.committed s2 X impl).cell X).cache_ = none := by
  simp [Set.committed, InvalidCache_cell]

theorem committed_inc (s2 : Sheet) (X : Position) (impl : Impl) (v w : Position)
    (h : w ∈ (Set.committed s2 X impl).inc v) :
    w ∈ s2.inc v ∨ (w = v ∧ w.IsValid = true) := by
  have h1 : w ∈ (UpdateReferences (s2.put X { s2.cell X with impl_ := impl }) X).inc v := by
    unfold Set.committed Sheet.inc at h
    rw [InvalidCache_cell] at h
    by_cases hv : v = X
    · simpa [hv, Sheet.inc] using h
    · simpa [hv, Sheet.inc] using h
  rcases UpdateReferences_inc _ X v w h1 with h2 | h2
  · left
    rw [inc_put] at h2
    by_cases hv : v = X
    · subst hv; simpa [Sheet.inc] using h2
    · simpa [hv] using h2
  · exact Or.inr h2

theorem Set_ok_cache_inc {ParseFormula : String → Option FormulaInterface} {fuel : Nat}
    {s s1 : Sheet} {X : Position} {text : String}
    (h : Set ParseFormula fuel s X text = some (SetResult.ok s1)) :
    (s1.cell X).cache_ = none ∧
      ∀ v w, w ∈ s1.inc v → w ∈ s.inc v ∨ (w = v ∧ w.IsValid = true) := by
  obtain ⟨impl, s2, _, hcheck, hwalk⟩ := (Set_ok_iff _ _ _ _ _ _).1 h
  refine ⟨?_, ?_⟩
  · rcases walk_frame _ _ _ _ hwalk X with h1 | h1
    · rw [h1]; exact committed_cache s2 X impl
    · rw [h1]
  · intro v w hw
    rw [walk_inc hwalk] at hw
    rcases committed_inc s2 X impl v w hw with h2 | h2
    · left
      have : s2.inc v = s.inc v := by
        simp [Sheet.inc, Grown.cell (IsCircular_grown hcheck)]
      rw [← this]
      exact h2
    · exact Or.inr h2

/-! ## Classification of the text by `Cell::Set` -/

theorem candidate_literal (ParseFormula : String → Option FormulaInterface) (t : String)
    (h : t.data = [] ∨ t.data.head? ≠ some FORMULA_SIGN ∨ t.data = [FORMULA_SIGN]) :
    Set.candidate ParseFormula t = some (literalContent t) := by
  unfold Set.candidate literalContent
  by_cases he : t.data = []
  · rw [if_pos he, if_pos he]
  · rw [if_neg he, if_neg he]
    have hcond : ¬ (t.data.head? = some FORMULA_SIGN ∧ 1 < t.data.length) := by
      rintro ⟨h1, h2⟩
      rcases h with h | h | h
      · exact he h
      · exact h h1
      · rw [h] at h2
        exact absurd h2 (by decide)
    rw [if_neg hcond]

theorem candidate_formula (ParseFormula : String → Option FormulaInterface) (t : String)
    (h : t.data.head? = some FORMULA_SIGN ∧ 1 < t.data.length) :
    Set.candidate ParseFormula t
      = (ParseFormula (String.mk t.data.tail)).map Impl.FormulaImpl := by
  unfold Set.candidate
  have he : t.data ≠ [] := by
    intro h0
    rw [h0] at h
    exact absurd h.2 (by decide)
  rw [if_neg he, if_pos h]
  cases ParseFormula (String.mk t.data.tail) <;> rfl

theorem literalContent_refs (t : String) : (literalContent t).GetReferencedCells = [] := by
  unfold literalContent
  by_cases he : t.data = []
  · rw [if_pos he]; rfl
  · rw [if_neg he]; rfl

theorem literalContent_text (t : String) : (literalContent t).GetText = t := by
  unfold literalContent
  by_cases he : t.data = []
  · rw [if_pos he]
    cases t
    simp only at he
    subst he
    rfl
  · rw [if_neg he]; rfl

theorem Set_formulaException {ParseFormula : String → Option FormulaInterface} {fuel : Nat}
    {s s1 : Sheet} {X : Position} {text : String}
    (h : Set ParseFormula fuel s X text = some (SetResult.FormulaException s1)) :
    Set.candidate ParseFormula text = none := by
  cases hc : Set.candidate ParseFormula text with
  | none => rfl
  | some impl =>
    unfold Set at h
    simp only [hc] at h
    cases hi : IsCircular fuel s X impl with
    | none => simp [hi] at h
    | some q =>
      obtain ⟨b, s2⟩ := q
      cases b with
      | true => simp [hi] at h
      | false =>
        simp only [hi] at h
        cases hw : InvalidAllDependentCaches fuel
            (InvalidCache (UpdateReferences (s2.put X { s2.cell X with impl_ := impl }) X) X)
            ((InvalidCache (UpdateReferences (s2.put X { s2.cell X with impl_ := impl }) X)
              X).cell X).incoming_references_ with
        | none => simp [hw] at h
        | some s5 => simp [hw] at h

theorem not_closesCycle_nil (g : Position → Cells) (X : Position) : ¬ ClosesCycle g X [] := by
  rintro (h | ⟨r, hr, _⟩)
  · exact absurd h (List.not_mem_nil X)
  · exact absurd hr (List.not_mem_nil r)

theorem Set_no_refs_ok {ParseFormula : String → Option FormulaInterface} {fuel : Nat}
    {s : Sheet} {X : Position} {text : String} {impl : Impl} {r : SetResult}
    (hc : Set.candidate ParseFormula text = some impl) (hrefs : impl.GetReferencedCells = [])
    (h : Set ParseFormula fuel s X text = some r) : ∃ s1, r = SetResult.ok s1 := by
  cases r with
  | ok s1 => exact ⟨s1, rfl⟩
  | FormulaException s1 =>
    rw [Set_formulaException h] at hc
    exact absurd hc (by simp)
  | CircularDependencyException s1 =>
    have h1 := (Set_circular_iff _ _ _ _ _ _ _ hc).1 h
    have h2 := (IsCircular_true_iff s X impl).1 ⟨fuel, s1, h1⟩
    rw [hrefs] at h2
    exact absurd h2 (not_closesCycle_nil s.out X)

theorem Set_no_refs_returns (ParseFormula : String → Option FormulaInterface)
    (s : Sheet) (X : Position) (text : String) (impl : Impl)
    (hc : Set.candidate ParseFormula text = some impl) (hrefs : impl.GetReferencedCells = [])
    (hinc : (s.cell X).incoming_references_ = []) :
    ∃ s1, Set ParseFormula 1 s X text = some (SetResult.ok s1) := by
  have hcheck : IsCircular 1 s X impl = some (false, s) := by
    simp [IsCircular, hrefs, Cells.ofVector, IsCircularFormula, IsCircularFormula.loop]
  have hnone : ((Set.committed s X impl).cell X).incoming_references_ = [] := by
    apply List.eq_nil_iff_forall_not_mem.2
    intro w hw
    have h1 : w ∈ (UpdateReferences (s.put X { s.cell X with impl_ := impl }) X).inc X := by
      unfold Set.committed at hw
      rw [InvalidCache_cell] at hw
      simpa [Sheet.inc] using hw
    have h2 := UpdateReferences_inc_of_no_refs _ X X w
      (by simp [Cell.GetReferencedCells, cell_put_same, hrefs]) h1
    rw [inc_put] at h2
    simp [hinc] at h2
  refine ⟨Set.committed s X impl, (Set_ok_iff _ _ _ _ _ _).2 ⟨impl, s, hc, hcheck, ?_⟩⟩
  rw [hnone]
  rfl

/-- Claim C12. After `Set(t)` has returned for a non-empty literal text `t`
(one that is not parsed as a formula), the cell has no cached value, `GetText()`
is `t` unchanged and `GetValue()` returns the text `t` without its first
character when `t` begins with the escape marker and `t` itself otherwise; of
two leading escape markers only the first is removed. -/
theorem literal_text_escape (ParseFormula : String → Option FormulaInterface) (fuel : Nat)
    (s s1 : Sheet) (X : Position) (t : String) (hne : t.data ≠ [])
    (hlit : ¬ (t.data.head? = some FORMULA_SIGN ∧ 1 < t.data.length))
    (hset : Set ParseFormula fuel s X t = some (SetResult.ok s1)) :
    (s1.cell X).GetText = t ∧ (s1.cell X).cache_ = none ∧
    (∀ n, (GetValue (n + 1) s1 X).map Prod.fst = some (Value.text (unescaped t))) ∧
    (t.data.head? = some ESCAPE_SIGN → unescaped t = String.mk t.data.tail) ∧
    (t.data.head? ≠ some ESCAPE_SIGN → unescaped t = t) ∧
    ∀ rest, t.data = ESCAPE_SIGN :: ESCAPE_SIGN :: rest →
      unescaped t = String.mk (ESCAPE_SIGN :: rest) := by
  have hcand : Set.candidate ParseFormula t = some (Impl.TextImpl t) := by
    unfold Set.candidate
    rw [if_neg hne, if_neg hlit]
  obtain ⟨impl, hc, _, _, _, himpl, _⟩ := Set_ok_out hset
  rw [hcand] at hc
  have himpl1 : (s1.cell X).impl_ = Impl.TextImpl t := by
    rw [himpl]
    exact (Option.some.inj hc).symm
  have hcache := (Set_ok_cache_inc hset).1
  refine ⟨?_, hcache, ?_, ?_, ?_, ?_⟩
  · simp [Cell.GetText, himpl1, Impl.GetText]
  · intro n
    unfold GetValue
    simp only [hcache, himpl1, Impl.GetValue, Option.map_some', unescaped]
    by_cases he : t.data.head? = some ESCAPE_SIGN
    · simp [he]
    · simp [he]
  · intro he
    simp [unescaped, he]
  · intro he
    simp [unescaped, he]
  · intro rest hrest
    simp [unescaped, hrest]

/-- Witness for C12: `Set` of the escape marker followed by `123` on the cell
`A1` of a sheet without cells gives that text back as `GetText()` and the text
`123` as `GetValue()`; of two leading escape markers one is kept. -/
theorem literal_text_escape_witness :
    Set sampleParseFormula 1 [] A1 textEscaped123 = some (SetResult.ok sheetEscaped123) ∧
    (Sheet.cell sheetEscaped123 A1).GetText = textEscaped123 ∧
    (GetValue 1 sheetEscaped123 A1).map Prod.fst
      = some (Value.text (unescaped textEscaped123)) ∧
    unescaped textEscaped123 = "123" ∧
    unescaped textTwiceEscaped = String.mk [ESCAPE_SIGN, 'x'] :=
  ⟨by decide,
   (literal_text_escape sampleParseFormula 1 [] sheetEscaped123 A1 textEscaped123
     (by decide) (by decide) (by decide)).1,
   (literal_text_escape sampleParseFormula 1 [] sheetEscaped123 A1 textEscaped123
     (by decide) (by decide) (by decide)).2.2.1 0,
   by decide, by decide⟩

/-- Claim C13. A text that is empty, or does not begin with the formula marker,
or is exactly the formula marker is never parsed: whatever the parser, its
candidate content is Empty for the empty text and Literal-Text otherwise;
`Cell::Set` then raises neither `FormulaException` nor
`CircularDependencyException`, and when it has returned `GetText()` is the text
and `GetReferencedCells()` is empty; it returns whenever the incoming set of
the cell is empty. A text that begins with the formula marker and is longer
than one character is the only one handed to the parser, and after a `Set` that
returned normally `GetText()` is the formula marker followed by the parsed
formula's expression. -/
theorem Set_classifies_text (ParseFormula : String → Option FormulaInterface) (s : Sheet)
    (X : Position) (t : String) :
    ((t.data = [] ∨ t.data.head? ≠ some FORMULA_SIGN ∨ t.data = [FORMULA_SIGN]) →
      Set.candidate ParseFormula t = some (literalContent t) ∧
      Set.candidate rejectAll t = some (literalContent t) ∧
      (∀ fuel r, Set ParseFormula fuel s X t = some r →
        ∃ s1, r = SetResult.ok s1 ∧ (s1.cell X).impl_ = literalContent t ∧
          (s1.cell X).GetText = t ∧ (s1.cell X).GetReferencedCells = []) ∧
      ((s.cell X).incoming_references_ = [] →
        ∃ s1, Set ParseFormula 1 s X t = some (SetResult.ok s1))) ∧
    ((t.data.head? = some FORMULA_SIGN ∧ 1 < t.data.length) →
      Set.candidate ParseFormula t
        = (ParseFormula (String.mk t.data.tail)).map Impl.FormulaImpl ∧
      ∀ fuel s1, Set ParseFormula fuel s X t = some (SetResult.ok s1) →
        ∃ f, ParseFormula (String.mk t.data.tail) = some f ∧
          (s1.cell X).impl_ = Impl.FormulaImpl f ∧
          (s1.cell X).GetText = String.mk (FORMULA_SIGN :: f.GetExpression.data)) := by
  refine ⟨?_, ?_⟩
  · intro hclass
    have hc := candidate_literal ParseFormula t hclass
    refine ⟨hc, candidate_literal rejectAll t hclass, ?_, ?_⟩
    · intro fuel r hr
      obtain ⟨s1, rfl⟩ := Set_no_refs_ok hc (literalContent_refs t) hr
      obtain ⟨impl, hc1, _, _, _, himpl, _⟩ := Set_ok_out hr
      rw [hc] at hc1
      have himpl1 : (s1.cell X).impl_ = literalContent t := by
        rw [himpl]
        exact (Option.some.inj hc1).symm
      refine ⟨s1, rfl, himpl1, ?_, ?_⟩
      · simp [Cell.GetText, himpl1, literalContent_text]
      · simp [Cell.GetReferencedCells, himpl1, literalContent_refs]
    · intro hinc
      exact Set_no_refs_returns ParseFormula s X t _ hc (literalContent_refs t) hinc
  · intro hclass
    have hc := candidate_formula ParseFormula t hclass
    refine ⟨hc, ?_⟩
    intro fuel s1 hr
    obtain ⟨impl, hc1, _, _, _, himpl, _⟩ := Set_ok_out hr
    rw [hc] at hc1
    cases hp : ParseFormula (String.mk t.data.tail) with
    | none => simp [hp] at hc1
    | some f =>
      simp only [hp, Option.map_some', Option.some.injEq] at hc1
      have himpl1 : (s1.cell X).impl_ = Impl.FormulaImpl f := by
        rw [himpl]
        exact hc1.symm
      exact ⟨f, rfl, himpl1, by simp [Cell.GetText, himpl1, Impl.GetText]⟩

/-- Witness for C13: the one-character text `=` is stored as Literal-Text on the
cell `A1` of a sheet without cells, and `=B1` is stored as the formula `B1`. -/
theorem Set_classifies_text_witness :
    (("=" : String).data = [] ∨ ("=" : String).data.head? ≠ some FORMULA_SIGN ∨
      ("=" : String).data = [FORMULA_SIGN]) ∧
    Set.candidate sampleParseFormula "=" = some (literalContent "=") ∧
    (∃ s1, Set sampleParseFormula 1 [] A1 "=" = some (SetResult.ok s1)) ∧
    (("=B1" : String).data.head? = some FORMULA_SIGN ∧ 1 < ("=B1" : String).data.length) ∧
    Set sampleParseFormula 2 [] A1 "=B1" = some (SetResult.ok sheetA1ReadsB1) ∧
    (∃ f, sampleParseFormula (String.mk ("=B1" : String).data.tail) = some f ∧
      (Sheet.cell sheetA1ReadsB1 A1).impl_ = Impl.FormulaImpl f ∧
      (Sheet.cell sheetA1ReadsB1 A1).GetText
        = String.mk (FORMULA_SIGN :: f.GetExpression.data)) :=
  ⟨by decide,
   ((Set_classifies_text sampleParseFormula [] A1 "=").1 (by decide)).1,
   ((Set_classifies_text sampleParseFormula [] A1 "=").1 (by decide)).2.2.2 (by decide),
   by decide, by decide,
   ((Set_classifies_text sampleParseFormula [] A1 "=B1").2 (by decide)).2 2
     sheetA1ReadsB1 (by decide)⟩

/-! ## The hash of a position -/

theorem i_hasher_modEq (x : Int) :
    ((i_hasher x : Nat) : Int) ≡ x [ZMOD 18446744073709551616] := by
  unfold i_hasher
  rw [Int.toNat_of_nonneg (Int.emod_nonneg x (by norm_num))]
  exact Int.mod_modEq x _

theorem HashPosition_modEq (pos : Position) :
    ((HashPosition pos : Nat) : Int) ≡ pos.row + 27 * pos.col
      [ZMOD 18446744073709551616] := by
  unfold HashPosition
  have h1 : (((i_hasher pos.row + 27 * i_hasher pos.col) % 18446744073709551616 : Nat) : Int)
      = ((i_hasher pos.row : Int) + 27 * (i_hasher pos.col : Int))
          % 18446744073709551616 := by
    push_cast
    rfl
  rw [h1]
  exact (Int.mod_modEq _ _).trans
    (Int.ModEq.add (i_hasher_modEq pos.row) (Int.ModEq.mul_left 27 (i_hasher_modEq pos.col)))

/-- Claim C15. With `std::hash<int>` the conversion to the 64-bit `size_t` and
`row`, `col` 32-bit ints, the hash `hash(r) + 27 * hash(c)` (modulo 2^64) of
`Position(r, c)` differs from the hash of `Position(c, r)` whenever `r ≠ c`. -/
theorem HashPosition_order_sensitive (r c : Int)
    (hr1 : -2147483648 ≤ r) (hr2 : r ≤ 2147483647)
    (hc1 : -2147483648 ≤ c) (hc2 : c ≤ 2147483647) (h : r ≠ c) :
    HashPosition { row := r, col := c } ≠ HashPosition { row := c, col := r } := by
  intro heq
  have h1 := HashPosition_modEq { row := r, col := c }
  have h2 := HashPosition_modEq { row := c, col := r }
  rw [heq] at h1
  have h3 : r + 27 * c ≡ c + 27 * r [ZMOD 18446744073709551616] := h1.symm.trans h2
  have hdvd := Int.ModEq.dvd h3
  have hzero : c + 27 * r - (r + 27 * c) = 0 := by
    apply Int.eq_zero_of_abs_lt_dvd hdvd
    rw [abs_lt]
    constructor <;> linarith
  apply h
  linarith

/-- Witness for C15: the positions (0, 1) and (1, 0) hash to 27 and 1, and the
positions (-1, 1) and (1, -1) hash differently as well. -/
theorem HashPosition_order_sensitive_witness :
    HashPosition { row := 0, col := 1 } = 27 ∧ HashPosition { row := 1, col := 0 } = 1 ∧
    HashPosition { row := 0, col := 1 } ≠ HashPosition { row := 1, col := 0 } ∧
    HashPosition { row := -1, col := 1 } ≠ HashPosition { row := 1, col := -1 } :=
  ⟨by decide, by decide,
   HashPosition_order_sensitive 0 1 (by decide) (by decide) (by decide) (by decide)
     (by decide),
   HashPosition_order_sensitive (-1) 1 (by decide) (by decide) (by decide) (by decide)
     (by decide)⟩

/-! ## Consequences of the stale edge sets -/

/-- Claim C17 (the code violates it). After the successful calls
`Set(A1, "=C1")`, `Set(B1, "=C1")` and `Set(A1, "")` the stored outgoing set of
`B1` contains `C1`, yet both edge sets of `C1` are empty and `C1.IsReferenced()`
returns false. -/
theorem IsReferenced_false_while_read :
    runOk sampleParseFormula 2 [] [Call.Set A1 "=C1", Call.Set B1 "=C1", Call.Set A1 ""]
      = some sheetOneReaderLeft ∧
    C1 ∈ Sheet.out sheetOneReaderLeft B1 ∧
    Sheet.inc sheetOneReaderLeft C1 = [] ∧
    (Sheet.cell sheetOneReaderLeft C1).IsReferenced = false := by
  decide

/-- Claim C18 (the code violates it). After `Set(A1, "=B1")` and `Clear(A1)` the
content of `A1` is Empty, and `Set(B1, "=A1")` raises
`CircularDependencyException` although the graph of the current contents, with
the edges of `B1` replaced by the candidate reference `A1`, has no cycle
through `B1`. -/
theorem spurious_cycle_after_Clear :
    runOk sampleParseFormula 2 [] [Call.Set A1 "=B1", Call.Clear A1] = some sheetCleared ∧
    Set.candidate sampleParseFormula "=A1" = some (Impl.FormulaImpl formulaA1) ∧
    Set sampleParseFormula 2 sheetCleared B1 "=A1"
      = some (SetResult.CircularDependencyException sheetCleared) ∧
    ¬ Relation.TransGen
        (ContentEdge sheetCleared B1 (Impl.FormulaImpl formulaA1).GetReferencedCells) B1 B1 := by
  refine ⟨by decide, by decide, by decide, ?_⟩
  intro h
  obtain ⟨w, hw, hrest⟩ := Relation.TransGen.head'_iff.1 h
  have hwA : w = A1 := by
    have h1 := hw.2
    rw [if_pos rfl] at h1
    exact List.mem_singleton.1 h1
  subst hwA
  rcases Relation.reflTransGen_iff_eq_or_transGen.1 hrest with h1 | h1
  · exact absurd h1 (by decide)
  · obtain ⟨u, hu, _⟩ := Relation.TransGen.head'_iff.1 h1
    have h2 := hu.2
    rw [if_neg (by decide)] at h2
    exact absurd h2 (List.not_mem_nil u)

/-! ## The recorded traversals compute what the traversals compute -/

theorem loopLog_erase (recur : Sheet → Cells → Cells → Option CheckResult)
    (recurLog : Sheet → Cells → Cells → Option CheckRecord)
    (hrec : ∀ s o v, (recurLog s o v).map Prod.fst = recur s o v) :
    ∀ (rest : List Position) (s : Sheet) (visit : Cells),
      (IsCircularFormula.loopLog recurLog rest s visit).map Prod.fst
        = IsCircularFormula.loop recur rest s visit := by
  intro rest
  induction rest with
  | nil => intro s visit; rfl
  | cons pos rest ih =>
    intro s visit
    unfold IsCircularFormula.loopLog IsCircularFormula.loop
    by_cases hskip : (!pos.IsValid || decide (pos ∈ visit)) = true
    · rw [if_pos hskip, if_pos hskip]
      exact ih s visit
    · rw [if_neg hskip, if_neg hskip]
      simp only []
      rw [← hrec]
      cases hr : recurLog (MakeCell s pos) ((MakeCell s pos).cell pos).outgoing_references_
          (Cells.insert visit pos) with
      | none => rfl
      | some rl =>
        obtain ⟨⟨b, s2, visit2⟩, log⟩ := rl
        cases b with
        | true => rfl
        | false =>
          simp only [Option.map_some']
          rw [← ih s2 visit2]
          cases IsCircularFormula.loopLog recurLog rest s2 visit2 with
          | none => rfl
          | some q => rfl

theorem IsCircularFormulaLog_erase (X : Position) :
    ∀ (fuel : Nat) (s : Sheet) (out visit : Cells),
      (IsCircularFormulaLog fuel s X out visit).map Prod.fst
        = IsCircularFormula fuel s X out visit := by
  intro fuel
  induction fuel with
  | zero => intro s out visit; rfl
  | succ n ih =>
    intro s out visit
    unfold IsCircularFormulaLog IsCircularFormula
    by_cases hX : X ∈ out
    · rw [if_pos hX, if_pos hX]; rfl
    · rw [if_neg hX, if_neg hX]
      exact loopLog_erase _ _ (fun s1 o v => ih s1 o v) out s visit

theorem walkLoopLog_erase (recur : Sheet → Cells → Option Sheet)
    (recurLog : Sheet → Cells → Option (Sheet × List Position))
    (hrec : ∀ s i, (recurLog s i).map Prod.fst = recur s i) :
    ∀ (rest : List Position) (s : Sheet),
      (InvalidAllDependentCaches.loopLog recurLog rest s).map Prod.fst
        = InvalidAllDependentCaches.loop recur rest s := by
  intro rest
  induction rest with
  | nil => intro s; rfl
  | cons pos rest ih =>
    intro s
    unfold InvalidAllDependentCaches.loopLog InvalidAllDependentCaches.loop
    by_cases hv : (!pos.IsValid) = true
    · rw [if_pos hv, if_pos hv]
      exact ih s
    · rw [if_neg hv, if_neg hv]
      simp only []
      rw [← hrec]
      cases hr : recurLog (InvalidCache (MakeCell s pos) pos)
          ((InvalidCache (MakeCell s pos) pos).cell pos).incoming_references_ with
      | none => rfl
      | some rl =>
        obtain ⟨s3, log⟩ := rl
        simp only [Option.map_some']
        rw [← ih s3]
        cases InvalidAllDependentCaches.loopLog recurLog rest s3 with
        | none => rfl
        | some q => rfl

theorem InvalidAllDependentCachesLog_erase :
    ∀ (fuel : Nat) (s : Sheet) (inc : Cells),
      (InvalidAllDependentCachesLog fuel s inc).map Prod.fst
        = InvalidAllDependentCaches fuel s inc := by
  intro fuel
  induction fuel with
  | zero => intro s inc; rfl
  | succ n ih =>
    intro s inc
    unfold InvalidAllDependentCachesLog InvalidAllDependentCaches
    exact walkLoopLog_erase _ _ (fun s1 i => ih s1 i) inc s

theorem foldl_dropEdgeLog (l : List Position) :
    ∀ (s : Sheet) (log : List Position),
      (l.foldl UpdateReferences.dropEdgeLog (s, log)).1
          = l.foldl UpdateReferences.dropEdge s ∧
        ∀ p ∈ (l.foldl UpdateReferences.dropEdgeLog (s, log)).2,
          p ∈ log ∨ p.IsValid = true := by
  induction l with
  | nil => intro s log; exact ⟨rfl, fun p hp => Or.inl hp⟩
  | cons a tl ih =>
    intro s log
    simp only [List.foldl_cons]
    by_cases hv : a.IsValid = true
    · have hstep : UpdateReferences.dropEdgeLog (s, log) a
          = (UpdateReferences.dropEdge s a, log ++ [a]) := by
        simp [UpdateReferences.dropEdgeLog, UpdateReferences.dropEdge, hv]
      rw [hstep]
      obtain ⟨h1, h2⟩ := ih (UpdateReferences.dropEdge s a) (log ++ [a])
      refine ⟨h1, ?_⟩
      intro p hp
      rcases h2 p hp with h3 | h3
      · rcases List.mem_append.1 h3 with h4 | h4
        · exact Or.inl h4
        · rw [List.mem_singleton.1 h4]; exact Or.inr hv
      · exact Or.inr h3
    · have hstep : UpdateReferences.dropEdgeLog (s, log) a
          = (UpdateReferences.dropEdge s a, log) := by
        simp [UpdateReferences.dropEdgeLog, UpdateReferences.dropEdge, hv]
      rw [hstep]
      exact ih (UpdateReferences.dropEdge s a) log

theorem foldl_addEdgeLog (X : Position) (l : List Position) :
    ∀ (s : Sheet) (log : List Position),
      (l.foldl (UpdateReferences.addEdgeLog X) (s, log)).1
          = l.foldl (UpdateReferences.addEdge X) s ∧
        ∀ p ∈ (l.foldl (UpdateReferences.addEdgeLog X) (s, log)).2,
          p ∈ log ∨ p.IsValid = true := by
  induction l with
  | nil => intro s log; exact ⟨rfl, fun p hp => Or.inl hp⟩
  | cons a tl ih =>
    intro s log
    simp only [List.foldl_cons]
    by_cases hv : a.IsValid = true
    · have hstep : UpdateReferences.addEdgeLog X (s, log) a
          = (UpdateReferences.addEdge X s a, log ++ [a]) := by
        simp [UpdateReferences.addEdgeLog, UpdateReferences.addEdge, hv]
      rw [hstep]
      obtain ⟨h1, h2⟩ := ih (UpdateReferences.addEdge X s a) (log ++ [a])
      refine ⟨h1, ?_⟩
      intro p hp
      rcases h2 p hp with h3 | h3
      · rcases List.mem_append.1 h3 with h4 | h4
        · exact Or.inl h4
        · rw [List.mem_singleton.1 h4]; exact Or.inr hv
      · exact Or.inr h3
    · have hstep : UpdateReferences.addEdgeLog X (s, log) a
          = (UpdateReferences.addEdge X s a, log) := by
        simp [UpdateReferences.addEdgeLog, UpdateReferences.addEdge, hv]
      rw [hstep]
      exact ih (UpdateReferences.addEdge X s a) log

theorem UpdateReferencesLog_erase (s : Sheet) (X : Position) :
    (UpdateReferencesLog s X).1 = UpdateReferences s X := by
  unfold UpdateReferencesLog UpdateReferences
  simp only []
  rw [(foldl_addEdgeLog X _ _ _).1, (foldl_dropEdgeLog _ s []).1]

theorem UpdateReferencesLog_valid (s : Sheet) (X : Position) :
    ∀ p ∈ (UpdateReferencesLog s X).2, p.IsValid = true := by
  unfold UpdateReferencesLog
  simp only []
  intro p hp
  rcases (foldl_addEdgeLog X _ _ _).2 p hp with h1 | h1
  · rcases (foldl_dropEdgeLog _ s []).2 p h1 with h2 | h2
    · exact absurd h2 (List.not_mem_nil p)
    · exact h2
  · exact h1

/-! ## What the recorded traversals pass to `MakeCell` -/

theorem loopLog_spec (recurLog : Sheet → Cells → Cells → Option CheckRecord)
    (hrec : ∀ s o v r log, recurLog s o v = some (r, log) →
      v ⊆ r.2.2 ∧ log.Nodup ∧ ∀ p ∈ log, p.IsValid = true ∧ p ∉ v ∧ p ∈ r.2.2) :
    ∀ (rest : List Position) (s : Sheet) (visit : Cells) (r : CheckResult)
      (log : List Position),
      IsCircularFormula.loopLog recurLog rest s visit = some (r, log) →
      visit ⊆ r.2.2 ∧ log.Nodup ∧ ∀ p ∈ log, p.IsValid = true ∧ p ∉ visit ∧ p ∈ r.2.2 := by
  intro rest
  induction rest with
  | nil =>
    intro s visit r log h
    simp only [IsCircularFormula.loopLog, Option.some.injEq, Prod.mk.injEq] at h
    obtain ⟨hr, hl⟩ := h
    subst hr hl
    exact ⟨List.Subset.refl _, List.nodup_nil, fun p hp => absurd hp (List.not_mem_nil p)⟩
  | cons pos rest ih =>
    intro s visit r log h
    unfold IsCircularFormula.loopLog at h
    by_cases hskip : (!pos.IsValid || decide (pos ∈ visit)) = true
    · rw [if_pos hskip] at h
      exact ih s visit r log h
    · rw [if_neg hskip] at h
      simp only [Bool.or_eq_true, Bool.not_eq_true', decide_eq_true_eq, not_or,
        Bool.not_eq_false] at hskip
      obtain ⟨hvalid, hfresh⟩ := hskip
      simp only [] at h
      cases hr : recurLog (MakeCell s pos) ((MakeCell s pos).cell pos).outgoing_references_
          (Cells.insert visit pos) with
      | none => simp [hr] at h
      | some rl =>
        obtain ⟨⟨b, s2, visit2⟩, log1⟩ := rl
        obtain ⟨hsub1, hnd1, hall1⟩ := hrec _ _ _ _ _ hr
        simp only [] at hsub1 hall1
        have hpos1 : pos ∈ Cells.insert visit pos := (mem_insert visit pos pos).2 (Or.inl rfl)
        have hsubv : visit ⊆ visit2 :=
          fun q hq => hsub1 ((mem_insert visit pos q).2 (Or.inr hq))
        have hpos_log1 : pos ∉ log1 := fun hp => (hall1 pos hp).2.1 hpos1
        have hlog1 : ∀ p ∈ log1, p.IsValid = true ∧ p ∉ visit ∧ p ∈ visit2 :=
          fun p hp => ⟨(hall1 p hp).1,
            fun hv => (hall1 p hp).2.1 ((mem_insert visit pos p).2 (Or.inr hv)),
            (hall1 p hp).2.2⟩
        cases b with
        | true =>
          simp only [hr, Option.some.injEq, Prod.mk.injEq] at h
          obtain ⟨hr1, hl1⟩ := h
          subst hr1 hl1
          refine ⟨hsubv, List.nodup_cons.2 ⟨hpos_log1, hnd1⟩, ?_⟩
          intro p hp
          rcases List.mem_cons.1 hp with rfl | hp
          · exact ⟨hvalid, hfresh, hsub1 hpos1⟩
          · exact hlog1 p hp
        | false =>
          simp only [hr] at h
          cases hl : IsCircularFormula.loopLog recurLog rest s2 visit2 with
          | none => simp [hl] at h
          | some q =>
            obtain ⟨r2, log2⟩ := q
            simp only [hl, Option.some.injEq, Prod.mk.injEq] at h
            obtain ⟨hr1, hl1⟩ := h
            subst hr1 hl1
            obtain ⟨hsub2, hnd2, hall2⟩ := ih s2 visit2 r2 log2 hl
            have hpos_log2 : pos ∉ log2 := fun hp => (hall2 pos hp).2.1 (hsub1 hpos1)
            refine ⟨fun q hq => hsub2 (hsubv hq), ?_, ?_⟩
            · refine List.nodup_cons.2 ⟨?_, ?_⟩
              · intro hp
                rcases List.mem_append.1 hp with hp | hp
                · exact hpos_log1 hp
                · exact hpos_log2 hp
              · refine List.nodup_append.2 ⟨hnd1, hnd2, ?_⟩
                intro p hp1 hp2
                exact (hall2 p hp2).2.1 (hall1 p hp1).2.2
            · intro p hp
              rcases List.mem_cons.1 hp with rfl | hp
              · exact ⟨hvalid, hfresh, hsub2 (hsub1 hpos1)⟩
              · rcases List.mem_append.1 hp with hp | hp
                · exact ⟨(hlog1 p hp).1, (hlog1 p hp).2.1, hsub2 (hlog1 p hp).2.2⟩
                · exact ⟨(hall2 p hp).1, fun hv => (hall2 p hp).2.1 (hsubv hv),
                    (hall2 p hp).2.2⟩

theorem IsCircularFormulaLog_spec (X : Position) :
    ∀ (fuel : Nat) (s : Sheet) (out visit : Cells) (r : CheckResult) (log : List Position),
      IsCircularFormulaLog fuel s X out visit = some (r, log) →
      visit ⊆ r.2.2 ∧ log.Nodup ∧ ∀ p ∈ log, p.IsValid = true ∧ p ∉ visit ∧ p ∈ r.2.2 := by
  intro fuel
  induction fuel with
  | zero => intro s out visit r log h; simp [IsCircularFormulaLog] at h
  | succ n ih =>
    intro s out visit r log h
    unfold IsCircularFormulaLog at h
    by_cases hX : X ∈ out
    · rw [if_pos hX] at h
      simp only [Option.some.injEq, Prod.mk.injEq] at h
      obtain ⟨hr, hl⟩ := h
      subst hr hl
      exact ⟨List.Subset.refl _, List.nodup_nil, fun p hp => absurd hp (List.not_mem_nil p)⟩
    · rw [if_neg hX] at h
      exact loopLog_spec _ (fun s1 o v r1 l1 h1 => ih s1 o v r1 l1 h1) out s visit r log h

theorem walkLoopLog_valid (recurLog : Sheet → Cells → Option (Sheet × List Position))
    (hrec : ∀ s i s1 log, recurLog s i = some (s1, log) → ∀ p ∈ log, p.IsValid = true) :
    ∀ (rest : List Position) (s s1 : Sheet) (log : List Position),
      InvalidAllDependentCaches.loopLog recurLog rest s = some (s1, log) →
      ∀ p ∈ log, p.IsValid = true := by
  intro rest
  induction rest with
  | nil =>
    intro s s1 log h
    simp only [InvalidAllDependentCaches.loopLog, Option.some.injEq, Prod.mk.injEq] at h
    obtain ⟨_, hl⟩ := h
    subst hl
    exact fun p hp => absurd hp (List.not_mem_nil p)
  | cons pos rest ih =>
    intro s s1 log h
    unfold InvalidAllDependentCaches.loopLog at h
    by_cases hv : pos.IsValid = true
    · simp only [hv, Bool.not_true, Bool.false_eq_true, if_false] at h
      cases hr : recurLog (InvalidCache (MakeCell s pos) pos)
          ((InvalidCache (MakeCell s pos) pos).cell pos).incoming_references_ with
      | none => simp [hr] at h
      | some rl =>
        obtain ⟨s3, log1⟩ := rl
        simp only [hr] at h
        cases hl : InvalidAllDependentCaches.loopLog recurLog rest s3 with
        | none => simp [hl] at h
        | some q =>
          obtain ⟨s4, log2⟩ := q
          simp only [hl, Option.some.injEq, Prod.mk.injEq] at h
          obtain ⟨_, hl1⟩ := h
          subst hl1
          intro p hp
          rcases List.mem_cons.1 hp with rfl | hp
          · exact hv
          · rcases List.mem_append.1 hp with hp | hp
            · exact hrec _ _ _ _ hr p hp
            · exact ih s3 s4 log2 hl p hp
    · simp only [hv, Bool.not_false, if_true] at h
      exact ih s s1 log h

theorem InvalidAllDependentCachesLog_valid :
    ∀ (fuel : Nat) (s s1 : Sheet) (inc : Cells) (log : List Position),
      InvalidAllDependentCachesLog fuel s inc = some (s1, log) →
      ∀ p ∈ log, p.IsValid = true := by
  intro fuel
  induction fuel with
  | zero => intro s s1 inc log h; simp [InvalidAllDependentCachesLog] at h
  | succ n ih =>
    intro s s1 inc log h
    unfold InvalidAllDependentCachesLog at h
    exact walkLoopLog_valid _ (fun s2 i s3 l h1 => ih s2 s3 i l h1) inc s s1 log h

/-! ## Only valid positions enter the graph -/

theorem Clear_cell (s : Sheet) (X v : Position) :
    (Clear s X).out v = s.out v ∧ (Clear s X).inc v = s.inc v := by
  unfold Clear
  rw [out_put, inc_put]
  by_cases h : v = X
  · subst h; simp [Sheet.out, Sheet.inc]
  · simp [h]

theorem inc_of_allEmpty {s : Sheet} (h : AllEmpty s) (v : Position) : s.inc v = [] := by
  unfold Sheet.inc Sheet.cell
  cases hg : s.GetCellByIndex v with
  | none => rfl
  | some c => exact (h v c hg).2.1

theorem reachable_by_Set_Clear_valid {ParseFormula : String → Option FormulaInterface}
    {s0 s : Sheet} (h0 : AllEmpty s0) (h : Reachable ParseFormula Call.isSetOrClear s0 s) :
    (∀ v w, w ∈ s.out v → w.IsValid = true) ∧ (∀ v w, w ∈ s.inc v → w.IsValid = true) := by
  induction h with
  | start =>
    refine ⟨?_, ?_⟩
    · intro v w hw
      rw [out_of_allEmpty h0 v] at hw
      exact absurd hw (List.not_mem_nil w)
    · intro v w hw
      rw [inc_of_allEmpty h0 v] at hw
      exact absurd hw (List.not_mem_nil w)
  | @step s c fuel r _ hallowed hexec ih =>
    obtain ⟨hout, hinc⟩ := ih
    cases c with
    | GetValue pos => simp [Call.isSetOrClear] at hallowed
    | Clear pos =>
      have hr : r = SetResult.ok (Clear s pos) := by
        simp only [Call.exec, Option.some.injEq] at hexec
        exact hexec.symm
      subst hr
      refine ⟨?_, ?_⟩
      · intro v w hw
        have hw1 : w ∈ (Clear s pos).out v := hw
        rw [(Clear_cell s pos v).1] at hw1
        exact hout v w hw1
      · intro v w hw
        have hw1 : w ∈ (Clear s pos).inc v := hw
        rw [(Clear_cell s pos v).2] at hw1
        exact hinc v w hw1
    | Set X text =>
      have hset : Set ParseFormula fuel s X text = some r := hexec
      by_cases hok : ∃ s1, r = SetResult.ok s1
      · obtain ⟨s1, rfl⟩ := hok
        obtain ⟨impl, _, _, hother, hX, _, _⟩ := Set_ok_out hset
        refine ⟨?_, ?_⟩
        · intro v w hw
          by_cases hv : v = X
          · subst hv
            exact ((hX w).1 hw).2
          · exact hout v w (by rw [← hother v hv]; exact hw)
        · intro v w hw
          rcases (Set_ok_cache_inc hset).2 v w hw with h1 | h1
          · exact hinc v w h1
          · exact h1.2
      · have hg := Set_raise_grown hset (fun s1 hr => hok ⟨s1, hr⟩)
        refine ⟨?_, ?_⟩
        · intro v w hw
          rw [Grown.out hg] at hw
          exact hout v w hw
        · intro v w hw
          have : r.sheet.inc v = s.inc v := by simp [Sheet.inc, Grown.cell hg]
          rw [this] at hw
          exact hinc v w hw

/-- Claim C14. In every store reachable from an all-empty sheet by `Cell::Set`
and `Cell::Clear` calls, with any parser (its formulas may report invalid
positions), no stored outgoing or incoming set contains an invalid position;
and on every store the cycle check, the edge update and the invalidation walk
pass only valid positions to `MakeCell`. -/
theorem only_valid_positions (ParseFormula : String → Option FormulaInterface)
    (s0 s : Sheet) (h0 : AllEmpty s0) (h : Reachable ParseFormula Call.isSetOrClear s0 s) :
    (∀ v w, w ∈ s.out v → w.IsValid = true) ∧
    (∀ v w, w ∈ s.inc v → w.IsValid = true) ∧
    (∀ (s1 : Sheet) (fuel : Nat) (X : Position) (R visit : Cells) (r : CheckResult)
        (log : List Position),
      IsCircularFormulaLog fuel s1 X R visit = some (r, log) → ∀ p ∈ log, p.IsValid = true) ∧
    (∀ (s1 : Sheet) (X : Position), ∀ p ∈ (UpdateReferencesLog s1 X).2, p.IsValid = true) ∧
    (∀ (s1 s2 : Sheet) (fuel : Nat) (inc : Cells) (log : List Position),
      InvalidAllDependentCachesLog fuel s1 inc = some (s2, log) →
      ∀ p ∈ log, p.IsValid = true) := by
  refine ⟨(reachable_by_Set_Clear_valid h0 h).1, (reachable_by_Set_Clear_valid h0 h).2,
    ?_, ?_, ?_⟩
  · intro s1 fuel X R visit r log hlog p hp
    exact ((IsCircularFormulaLog_spec X fuel s1 R visit r log hlog).2.2 p hp).1
  · intro s1 X
    exact UpdateReferencesLog_valid s1 X
  · intro s1 s2 fuel inc log hlog
    exact InvalidAllDependentCachesLog_valid fuel s1 s2 inc log hlog

/-- Witness for C14: `Set(A1, "=x")` with a parser that reports the references
`(-1, -1), B1`, followed by `Clear(A1)`: the outgoing set of `A1` is `{B1}`, and
the edge update of such a cell passes only `B1` to `MakeCell`. -/
theorem only_valid_positions_witness :
    AllEmpty [] ∧
    Reachable parseInvalidAndB1 Call.isSetOrClear [] sheetAfterInvalidRef ∧
    invalidPosition.IsValid = false ∧
    Sheet.out sheetAfterInvalidRef A1 = [B1] ∧
    (∀ v w, w ∈ Sheet.out sheetAfterInvalidRef v → w.IsValid = true) ∧
    (∀ v w, w ∈ Sheet.inc sheetAfterInvalidRef v → w.IsValid = true) :=
  have h0 : AllEmpty [] := fun p c h => by simp [Sheet.GetCellByIndex] at h
  have h1 : Reachable parseInvalidAndB1 Call.isSetOrClear []
      [(B1, { impl_ := Impl.EmptyImpl, incoming_references_ := [B1],
              outgoing_references_ := [], cache_ := none }),
       (A1, { impl_ := Impl.FormulaImpl
                { GetExpression := "x", GetReferencedCells := [invalidPosition, B1],
                  body := Expr.ref B1 },
              incoming_references_ := [], outgoing_references_ := [B1], cache_ := none })] :=
    @Reachable.step parseInvalidAndB1 Call.isSetOrClear [] [] (Call.Set A1 "=x") 2
      (SetResult.ok _) Reachable.start rfl (by decide)
  have h2 : Reachable parseInvalidAndB1 Call.isSetOrClear [] sheetAfterInvalidRef :=
    @Reachable.step parseInvalidAndB1 Call.isSetOrClear [] _ (Call.Clear A1) 0
      (SetResult.ok sheetAfterInvalidRef) h1 rfl (by decide)
  ⟨h0, h2, by decide, by decide,
   (only_valid_positions parseInvalidAndB1 [] sheetAfterInvalidRef h0 h2).1,
   (only_valid_positions parseInvalidAndB1 [] sheetAfterInvalidRef h0 h2).2.1⟩

/-! ## The cycle check expands every position at most once -/

/-- Claim C16. For every store (its outgoing sets may contain cycles), every
cell `X`, candidate reference set and visited set, `Cell::IsCircularFormula`
returns; the recorded check returns exactly when the check does, with the same
result, and the positions it passes to `MakeCell` and recurses into are pairwise
distinct and were not visited before: each position is looked up and expanded
at most once. -/
theorem IsCircularFormula_expands_once (s : Sheet) (X : Position) (R visit : Cells) :
    (∃ fuel r, IsCircularFormula fuel s X R visit = some r) ∧
    (∀ fuel r, IsCircularFormula fuel s X R visit = some r →
      ∃ log, IsCircularFormulaLog fuel s X R visit = some (r, log)) ∧
    (∀ fuel r log, IsCircularFormulaLog fuel s X R visit = some (r, log) →
      IsCircularFormula fuel s X R visit = some r ∧ log.Nodup ∧
        ∀ p ∈ log, p.IsValid = true ∧ p ∉ visit ∧ p ∈ r.2.2) := by
  refine ⟨?_, ?_, ?_⟩
  · obtain ⟨r, hr⟩ := IsCircularFormula_returns X s.out (R ++ s.allOut)
      (fun v w hw => List.mem_append_right _ (out_subset_allOut s v w hw))
      (((R ++ s.allOut).toFinset \ visit.toFinset).card + 1) s R visit rfl
      (fun p hp => List.mem_append_left _ hp) (Nat.lt_succ_self _)
    exact ⟨_, r, hr⟩
  · intro fuel r hr
    have he := IsCircularFormulaLog_erase X fuel s R visit
    rw [hr] at he
    cases hl : IsCircularFormulaLog fuel s X R visit with
    | none => simp [hl] at he
    | some q =>
      obtain ⟨r1, log⟩ := q
      simp only [hl, Option.map_some', Option.some.injEq] at he
      subst he
      exact ⟨log, rfl⟩
  · intro fuel r log hl
    have he := IsCircularFormulaLog_erase X fuel s R visit
    rw [hl] at he
    refine ⟨he.symm, ?_⟩
    exact (IsCircularFormulaLog_spec X fuel s R visit r log hl).2

/-- Witness for C16: on a sheet where `A1` reads `B1` and `B1` reads `A1`, the
check for `C1` with candidate set `{A1}` returns false after expanding `A1` and
`B1` once each. -/
theorem IsCircularFormula_expands_once_witness :
    IsCircularFormulaLog 3 sheetCyclic C1 [A1] []
      = some ((false, sheetCyclic, [A1, B1]), [A1, B1]) ∧
    IsCircularFormula 3 sheetCyclic C1 [A1] [] = some (false, sheetCyclic, [A1, B1]) ∧
    ([A1, B1] : List Position).Nodup :=
  ⟨by decide,
   ((IsCircularFormula_expands_once sheetCyclic C1 [A1] []).2.2 3
     (false, sheetCyclic, [A1, B1]) [A1, B1] (by decide)).1,
   ((IsCircularFormula_expands_once sheetCyclic C1 [A1] []).2.2 3
     (false, sheetCyclic, [A1, B1]) [A1, B1] (by decide)).2.1⟩

end TableExcel
